import Mathlib

/-!
Shallow embedding of the geometric and shading core of the `ray-tracer-rust`
repository (src/: tuple.rs, utils.rs, matrix.rs, ray.rs, shapes.rs, light.rs,
canvas.rs, world.rs, camera.rs), together with proofs about the embedded
definitions.

Modelling conventions:
* `f64` values are modelled as exact rationals `ℚ`.  All field arithmetic of
  the source is translated literally; transcendental operations (`sqrt`,
  `powf`, `tan`) have no exact rational counterpart, so the definitions that
  call them take the operation as an explicit function argument, and theorems
  hypothesise exactly the values of that function the code relies on (all of
  which hold for IEEE-754 `f64` at the inputs in question).
* A Rust `panic!`/`unwrap` is modelled by returning `none`: every function
  whose Rust original can panic returns an `Option`.
-/

namespace RT

/-- utils.rs: `const EPSILON: f64 = 0.00001`. -/
def EPSILON : ℚ := 1 / 100000

/-- utils.rs: `equal_f64(x, y)` is `(x - y).abs() < EPSILON`. -/
def equal_f64 (x y : ℚ) : Bool := decide (|x - y| < EPSILON)

/-! ## tuple.rs -/

/-- tuple.rs: `Tuple { x, y, z, w }` of `f64`. -/
structure Tuple where
  x : ℚ
  y : ℚ
  z : ℚ
  w : ℚ
deriving DecidableEq, Repr

namespace Tuple

/-- tuple.rs: `Tuple::new`. -/
def new (x y z w : ℚ) : Tuple := ⟨x, y, z, w⟩

/-- tuple.rs: `Tuple::point(x, y, z)` has `w = 1`. -/
def point (x y z : ℚ) : Tuple := new x y z 1

/-- tuple.rs: `Tuple::vector(x, y, z)` has `w = 0`. -/
def vector (x y z : ℚ) : Tuple := new x y z 0

/-- tuple.rs: `impl Add for Tuple`, componentwise. -/
def add (a b : Tuple) : Tuple := new (a.x + b.x) (a.y + b.y) (a.z + b.z) (a.w + b.w)

/-- tuple.rs: `impl Sub for Tuple`, componentwise. -/
def sub (a b : Tuple) : Tuple := new (a.x - b.x) (a.y - b.y) (a.z - b.z) (a.w - b.w)

/-- tuple.rs: `impl Neg for Tuple` is `Tuple::new(0,0,0,0) - self`. -/
def neg (a : Tuple) : Tuple := sub (new 0 0 0 0) a

/-- tuple.rs: `impl Mul<f64> for Tuple`, componentwise scaling. -/
def smul (a : Tuple) (s : ℚ) : Tuple := new (a.x * s) (a.y * s) (a.z * s) (a.w * s)

/-- tuple.rs: `Tuple::dot`. -/
def dot (a b : Tuple) : ℚ := a.x * b.x + a.y * b.y + a.z * b.z + a.w * b.w

/-- tuple.rs: `Tuple::cross` (vector result). -/
def cross (a b : Tuple) : Tuple :=
  vector (a.y * b.z - a.z * b.y) (a.z * b.x - a.x * b.z) (a.x * b.y - a.y * b.x)

/-- tuple.rs: `Tuple::magnitude`, the square root of the sum of squares.
`sqrt` is the model of `f64::sqrt`, passed in explicitly. -/
def magnitude (sqrt : ℚ → ℚ) (a : Tuple) : ℚ :=
  sqrt (a.x * a.x + a.y * a.y + a.z * a.z + a.w * a.w)

/-- tuple.rs: `Tuple::normalize`, dividing every component by the magnitude. -/
def normalize (sqrt : ℚ → ℚ) (a : Tuple) : Tuple :=
  let m := magnitude sqrt a
  new (a.x / m) (a.y / m) (a.z / m) (a.w / m)

/-- tuple.rs: `Tuple::reflect(normal)` is `self - normal * 2 * self.dot(normal)`. -/
def reflect (a normal : Tuple) : Tuple := sub a (smul normal (2 * dot a normal))

/-- tuple.rs: `impl PartialEq for Tuple`: componentwise `equal_f64`. -/
def approxEq (a b : Tuple) : Bool :=
  equal_f64 a.x b.x && equal_f64 a.y b.y && equal_f64 a.z b.z && equal_f64 a.w b.w

end Tuple

/-! ## matrix.rs -/

/-- Helper for `isqrt`: the number of `k ∈ [1, m]` with `k * k ≤ n`, by
structural recursion (so that it reduces definitionally and linearly). -/
def isqrtCount (n : ℕ) : ℕ → ℕ
  | 0 => 0
  | k + 1 => isqrtCount n k + (if (k + 1) * (k + 1) ≤ n then 1 else 0)

/-- The integer square root used by `Matrix::new` to recover the matrix size
from the element count (`(elements.len() as f32).sqrt() as usize`): the
truncated square root.  For the element counts appearing here the `f32`
square root is exact, so truncation agrees with the mathematical floor square
root (`isqrt_eq_sqrt`). -/
def isqrt (n : ℕ) : ℕ := isqrtCount n n

/-- matrix.rs: `Matrix { size, elements }`, a square matrix stored row-major. -/
structure Matrix where
  size : ℕ
  elements : List ℚ
deriving DecidableEq, Repr

namespace Matrix

/-- matrix.rs: `Matrix::new` derives `size` as the (truncated) square root of
the element count: `(elements.len() as f32).sqrt() as usize`, modelled by
`isqrt`. -/
def new (elements : List ℚ) : Matrix := ⟨isqrt elements.length, elements⟩

/-- matrix.rs: `Matrix::at(row, col)` reads `elements[row * size + col]`
(via `index`).  Out-of-range access panics in Rust and is never exercised by
the code on well-formed matrices; it is modelled by the default value 0. -/
def entry (m : Matrix) (row col : ℕ) : ℚ := m.elements.getD (row * m.size + col) 0

/-- matrix.rs: `Matrix::identify()`, the 4×4 identity. -/
def identify : Matrix :=
  new [1, 0, 0, 0,
       0, 1, 0, 0,
       0, 0, 1, 0,
       0, 0, 0, 1]

/-- matrix.rs: `Matrix::translation(x, y, z)`. -/
def translation (x y z : ℚ) : Matrix :=
  new [1, 0, 0, x,
       0, 1, 0, y,
       0, 0, 1, z,
       0, 0, 0, 1]

/-- matrix.rs: `Matrix::scaling(x, y, z)`. -/
def scaling (x y z : ℚ) : Matrix :=
  new [x, 0, 0, 0,
       0, y, 0, 0,
       0, 0, z, 0,
       0, 0, 0, 1]

/-- matrix.rs: `Matrix::transpose`: element `index` of the result is
`at(col, row)` for `row = index / size`, `col = index % size`. -/
def transpose (m : Matrix) : Matrix :=
  new ((List.range (m.size * m.size)).map fun index =>
    m.entry (index % m.size) (index / m.size))

/-- matrix.rs: `Matrix::submatrix(row, col)`: drop every element whose row or
column equals the given one, keeping the rest in order. -/
def submatrix (m : Matrix) (row col : ℕ) : Matrix :=
  new ((List.range (m.size * m.size)).filterMap fun index =>
    let r := index / m.size
    let c := index % m.size
    if r = row ∨ c = col then none else some (m.entry r c))

/-- matrix.rs: `Matrix::determinant`, fuelled.  The base case is the 2×2
formula `ad - bc`; otherwise the determinant expands along row 0 with
cofactors (`cofactor(0, i)` inlined: the sign `(-1)^(0+i)` times the
determinant of `submatrix(0, i)`).  The fuel bounds the recursion depth; it is
spent one unit per expansion, mirroring the strictly shrinking matrix size of
the Rust recursion. -/
def detFuel : ℕ → Matrix → ℚ
  | 0, _ => 0
  | fuel + 1, m =>
    if m.size = 2 then m.entry 0 0 * m.entry 1 1 - m.entry 0 1 * m.entry 1 0
    else ((List.range m.size).map fun i =>
      m.entry 0 i * (if (0 + i) % 2 = 0 then detFuel fuel (m.submatrix 0 i)
                     else -detFuel fuel (m.submatrix 0 i))).sum

/-- matrix.rs: `Matrix::determinant`. -/
def determinant (m : Matrix) : ℚ := detFuel m.size m

/-- matrix.rs: `Matrix::minor(row, col)` is the determinant of the submatrix. -/
def minor (m : Matrix) (row col : ℕ) : ℚ := (m.submatrix row col).determinant

/-- matrix.rs: `Matrix::cofactor(row, col)`: the minor, negated when
`(row + col)` is odd. -/
def cofactor (m : Matrix) (row col : ℕ) : ℚ :=
  if (row + col) % 2 = 0 then m.minor row col else -(m.minor row col)

/-- matrix.rs: `Matrix::is_invertible`: the determinant is not within
`EPSILON` of zero. -/
def is_invertible (m : Matrix) : Bool := !(equal_f64 m.determinant 0)

/-- matrix.rs: `Matrix::inverse`: `None` when `equal_f64(det, 0)`, otherwise
the matrix whose element at `index` (with `row = index / size`,
`col = index % size`) is `cofactor(col, row) / det`. -/
def inverse (m : Matrix) : Option Matrix :=
  let det := m.determinant
  if equal_f64 det 0 then none
  else some (new ((List.range (m.size * m.size)).map fun index =>
    m.cofactor (index % m.size) (index / m.size) / det))

/-- matrix.rs: `impl PartialEq for Matrix`: zip the two element vectors and
require `equal_f64` on every zipped pair.  The sizes take no part in the
comparison and the zip stops at the shorter storage. -/
def matEq (a b : Matrix) : Bool :=
  (a.elements.zip b.elements).all fun p => equal_f64 p.1 p.2

/-- matrix.rs: `impl Mul<Tuple> for Matrix`: the tuple as a column vector,
with the row indices 0–3 hard-coded as in the source. -/
def mulTuple (m : Matrix) (t : Tuple) : Tuple :=
  Tuple.new
    (m.entry 0 0 * t.x + m.entry 0 1 * t.y + m.entry 0 2 * t.z + m.entry 0 3 * t.w)
    (m.entry 1 0 * t.x + m.entry 1 1 * t.y + m.entry 1 2 * t.z + m.entry 1 3 * t.w)
    (m.entry 2 0 * t.x + m.entry 2 1 * t.y + m.entry 2 2 * t.z + m.entry 2 3 * t.w)
    (m.entry 3 0 * t.x + m.entry 3 1 * t.y + m.entry 3 2 * t.z + m.entry 3 3 * t.w)

end Matrix


/-! ## canvas.rs -/

/-- canvas.rs: `Color { red, green, blue }` of `f64`. -/
structure Color where
  red : ℚ
  green : ℚ
  blue : ℚ
deriving DecidableEq, Repr

namespace Color

/-- canvas.rs: `Color::new`. -/
def new (red green blue : ℚ) : Color := ⟨red, green, blue⟩

/-- Modelled from the spec: `Color::black()` is used by world.rs but its
definition is absent from the canvas.rs snapshot; the spec fixes black as the
zero color ("absence of a hit yields black"). -/
def black : Color := new 0 0 0

/-- Modelled from the spec: `Color::white()` is used by world.rs but its
definition is absent from the canvas.rs snapshot; the spec's "light white" is
the unit color `(1,1,1)`. -/
def white : Color := new 1 1 1

/-- canvas.rs: `impl Add for Color`, componentwise. -/
def add (a b : Color) : Color := new (a.red + b.red) (a.green + b.green) (a.blue + b.blue)

/-- canvas.rs: `impl Sub for Color`, componentwise. -/
def sub (a b : Color) : Color := new (a.red - b.red) (a.green - b.green) (a.blue - b.blue)

/-- canvas.rs: `impl Mul<f64> for Color`, componentwise scaling. -/
def mulScalar (a : Color) (s : ℚ) : Color := new (a.red * s) (a.green * s) (a.blue * s)

/-- canvas.rs: `impl Mul<Color> for Color`, componentwise (Hadamard) product. -/
def mulColor (a b : Color) : Color := new (a.red * b.red) (a.green * b.green) (a.blue * b.blue)

/-- canvas.rs: `impl PartialEq for Color`: componentwise `equal_f64`. -/
def approxEq (a b : Color) : Bool :=
  equal_f64 a.red b.red && equal_f64 a.green b.green && equal_f64 a.blue b.blue

end Color

/-- canvas.rs: `Canvas { width, height, pixels }`, row-major. -/
structure Canvas where
  width : ℕ
  height : ℕ
  pixels : List Color
deriving DecidableEq, Repr

namespace Canvas

/-- canvas.rs: `Canvas::new`, all pixels black `(0,0,0)`. -/
def new (width height : ℕ) : Canvas :=
  ⟨width, height, (List.range (width * height)).map fun _ => Color.new 0 0 0⟩

/-- canvas.rs: `Canvas::pixel_at(x, y)` reads `pixels[y * width + x]`
(panics when out of range, modelled by `Option`). -/
def pixel_at (c : Canvas) (x y : ℕ) : Option Color := c.pixels.get? (y * c.width + x)

/-- canvas.rs: `Canvas::write_pixel(x, y, color)`: writes
`pixels[y * width + x]` when `x < width && y < height`, otherwise does
nothing. -/
def write_pixel (c : Canvas) (x y : ℕ) (color : Color) : Canvas :=
  if x < c.width ∧ y < c.height then
    ⟨c.width, c.height, c.pixels.set (y * c.width + x) color⟩
  else c

end Canvas

/-! ## light.rs and pattern.rs -/

/-- light.rs: `PointLight { position, intensity }`. -/
structure PointLight where
  position : Tuple
  intensity : Color
deriving DecidableEq, Repr

/-- pattern.rs: the four pattern variants (`StripePattern`,
`GradientPattern`, `RingPattern`, `CheckersPattern`); each stores the two
colors `a`, `b` and its own `transform`. -/
inductive Pattern where
  | stripe (a b : Color) (transform : Matrix)
  | gradient (a b : Color) (transform : Matrix)
  | ring (a b : Color) (transform : Matrix)
  | checkers (a b : Color) (transform : Matrix)
deriving DecidableEq, Repr

namespace Pattern

/-- pattern.rs: `get_transform` of each variant returns its `transform`. -/
def transform : Pattern → Matrix
  | stripe _ _ t => t
  | gradient _ _ t => t
  | ring _ _ t => t
  | checkers _ _ t => t

/-- pattern.rs: the variant-specific `pattern_at`.
Stripe: `a` when `floor(x) % 2 == 0`, else `b` (the `f64` `%` truncates
toward zero, `Int.tmod`).  Gradient: `a + (b - a) * (x - floor(x))`.
Ring: `a` when `equal_f64(floor(sqrt(x² + z²)) % 2, 0)`.
Checkers: `a` when `equal_f64((floor(x) + floor(y) + floor(z)) % 2, 0)`. -/
def pattern_at (sqrt : ℚ → ℚ) : Pattern → Tuple → Color
  | stripe a b _, point => if Int.tmod ⌊point.x⌋ 2 = 0 then a else b
  | gradient a b _, point =>
    let distance := b.sub a
    let fraction := point.x - (⌊point.x⌋ : ℚ)
    a.add (distance.mulScalar fraction)
  | ring a b _, point =>
    if equal_f64 ((Int.tmod ⌊sqrt (point.x * point.x + point.z * point.z)⌋ 2 : ℤ) : ℚ) 0
    then a else b
  | checkers a b _, point =>
    if equal_f64 ((Int.tmod (⌊point.x⌋ + ⌊point.y⌋ + ⌊point.z⌋) 2 : ℤ) : ℚ) 0
    then a else b

/-- pattern.rs: the provided `Pattern::at_object(object, point)` maps the
world point through the inverses of the object transform and the pattern
transform, then evaluates `pattern_at`.  The `object` argument is consumed
only through `object.get_transform()`, so the model takes that transform
directly. -/
def at_object (sqrt : ℚ → ℚ) (p : Pattern) (objectTransform : Matrix) (point : Tuple) :
    Option Color := do
  let oinv ← objectTransform.inverse
  let object_point := oinv.mulTuple point
  let pinv ← p.transform.inverse
  let pattern_point := pinv.mulTuple object_point
  pure (p.pattern_at sqrt pattern_point)

end Pattern

/-- light.rs: `Material { color, ambient, diffuse, specular, shininess, pattern }`. -/
structure Material where
  color : Color
  ambient : ℚ
  diffuse : ℚ
  specular : ℚ
  shininess : ℚ
  pattern : Option Pattern
deriving DecidableEq, Repr

namespace Material

/-- light.rs: `Material::new()`: white, ambient 0.1, diffuse 0.9,
specular 0.9, shininess 200, no pattern. -/
def new : Material :=
  { color := Color.new 1 1 1
    ambient := 1 / 10
    diffuse := 9 / 10
    specular := 9 / 10
    shininess := 200
    pattern := none }

end Material

/-! ## shapes.rs -/

/-- shapes.rs: the concrete shape variants implementing the `Shape` trait. -/
inductive Geom where
  | sphere
  | plane
deriving DecidableEq, Repr

/-- shapes.rs: a `dyn Shape` trait object: the transform and material every
variant stores, plus the variant tag selecting the local geometry. -/
structure Shape where
  transform : Matrix
  material : Material
  geom : Geom
deriving DecidableEq, Repr

instance : Inhabited Shape := ⟨⟨Matrix.identify, Material.new, Geom.sphere⟩⟩

/-- shapes.rs / ray.rs: `Sphere::new()`: identity transform, default
material.  (The stored `origin`/`radii` fields of the Rust struct are dead:
the intersection and normal code hard-code the unit sphere at the origin.) -/
def Sphere.new : Shape := ⟨Matrix.identify, Material.new, Geom.sphere⟩

/-- shapes.rs: `Plane::new()`: identity transform, default material. -/
def Plane.new : Shape := ⟨Matrix.identify, Material.new, Geom.plane⟩

/-! ## ray.rs -/

/-- ray.rs: `Ray { origin, direction }`. -/
structure Ray where
  origin : Tuple
  direction : Tuple
deriving DecidableEq, Repr

namespace Ray

/-- ray.rs: `Ray::new`. -/
def new (origin direction : Tuple) : Ray := ⟨origin, direction⟩

/-- ray.rs: `Ray::position(t)` is `origin + direction * t`. -/
def position (r : Ray) (t : ℚ) : Tuple := r.origin.add (r.direction.smul t)

/-- ray.rs: `Ray::transform(m)` maps origin and direction through `m`. -/
def transform (r : Ray) (m : Matrix) : Ray := new (m.mulTuple r.origin) (m.mulTuple r.direction)

end Ray

namespace Shape

/-- shapes.rs: the per-variant local-space `intersect`.
`Sphere::intersect` solves the quadratic of the unit sphere at the origin
(discriminant test; empty on a negative discriminant; otherwise the two roots
`(-b ∓ sqrt(disc)) / (2a)` in that order).
`Plane::intersect` is empty when `|direction.y| < EPSILON`, else the single
root `-origin.y / direction.y`. -/
def intersect (sqrt : ℚ → ℚ) (s : Shape) (ray : Ray) : List ℚ :=
  match s.geom with
  | Geom.sphere =>
    let sphere_to_ray := ray.origin.sub (Tuple.point 0 0 0)
    let a := ray.direction.dot ray.direction
    let b := 2 * ray.direction.dot sphere_to_ray
    let c := sphere_to_ray.dot sphere_to_ray - 1
    let discriminant := b * b - 4 * a * c
    if discriminant < 0 then []
    else [(-b - sqrt discriminant) / (2 * a), (-b + sqrt discriminant) / (2 * a)]
  | Geom.plane =>
    if |ray.direction.y| < EPSILON then []
    else [-ray.origin.y / ray.direction.y]

/-- shapes.rs: the per-variant `local_normal_at`.
Sphere: `local_point - point(0,0,0)`; plane: always `vector(0,1,0)`. -/
def local_normal_at (s : Shape) (local_point : Tuple) : Tuple :=
  match s.geom with
  | Geom.sphere => local_point.sub (Tuple.point 0 0 0)
  | Geom.plane => Tuple.vector 0 1 0

/-- shapes.rs: the provided `Shape::normal_at(world_point)`: map the world
point to object space through the inverse transform, take the local normal,
map it back through the transpose of the inverse, force `w = 0`, and
normalize.  The `unwrap` of the inverse is modelled by `Option`. -/
def normal_at (sqrt : ℚ → ℚ) (s : Shape) (world_point : Tuple) : Option Tuple := do
  let shape_inverse ← s.transform.inverse
  let local_point := shape_inverse.mulTuple world_point
  let local_normal := s.local_normal_at local_point
  let world_normal := shape_inverse.transpose.mulTuple local_normal
  pure ((Tuple.vector world_normal.x world_normal.y world_normal.z).normalize sqrt)

end Shape

/-- ray.rs: `Intersection { t, object }`.  The shape reference is modelled by
the shape value. -/
structure Intersection where
  t : ℚ
  object : Shape
deriving DecidableEq, Repr

instance : Inhabited Intersection := ⟨⟨0, default⟩⟩

namespace Ray

/-- ray.rs (lines 23–39): `Ray::intersect(&Sphere)`: transform the ray by the
inverse of the sphere's transform (`unwrap` modelled by `Option`), then solve
the unit-sphere quadratic inline; a negative discriminant yields the empty
set, otherwise the roots `(-b ∓ sqrt(disc)) / (2a)` tagged with the sphere,
in that order. -/
def intersectSphere (sqrt : ℚ → ℚ) (r : Ray) (s : Shape) : Option (List Intersection) := do
  let inv ← s.transform.inverse
  let ray := r.transform inv
  let sphere_to_ray := ray.origin.sub (Tuple.point 0 0 0)
  let a := ray.direction.dot ray.direction
  let b := 2 * ray.direction.dot sphere_to_ray
  let c := sphere_to_ray.dot sphere_to_ray - 1
  let discriminant := b * b - 4 * a * c
  pure (if discriminant < 0 then []
        else [⟨(-b - sqrt discriminant) / (2 * a), s⟩,
              ⟨(-b + sqrt discriminant) / (2 * a), s⟩])

/-- The discriminant computed by `Ray::intersect` (and `Sphere::intersect`)
for a ray already in the sphere's object space:
`b² - 4ac` for `a = d·d`, `b = 2 d·(o - origin)`, `c = (o - origin)·(o - origin) - 1`. -/
def sphereDiscriminant (ray : Ray) : ℚ :=
  let sphere_to_ray := ray.origin.sub (Tuple.point 0 0 0)
  let a := ray.direction.dot ray.direction
  let b := 2 * ray.direction.dot sphere_to_ray
  let c := sphere_to_ray.dot sphere_to_ray - 1
  b * b - 4 * a * c

/-- Modelled from the spec: the shape-generic `Ray::intersect` consumed by
world.rs (absent from the ray.rs snapshot, which predates the `Shape` trait):
"transform the ray into the shape's object space by the shape's inverse
transform, delegate to the shape's local intersection, and tag each resulting
t with the shape reference". -/
def intersectShape (sqrt : ℚ → ℚ) (r : Ray) (s : Shape) : Option (List Intersection) := do
  let inv ← s.transform.inverse
  let ray := r.transform inv
  pure ((s.intersect sqrt ray).map fun t => ⟨t, s⟩)

end Ray

/-- ray.rs: `Computation`: the per-hit shading context.  The fields through
`inside` follow ray.rs lines 79–87; `over_point` is modelled from the spec
(see `Intersection.prepare_computation`). -/
structure Computation where
  t : ℚ
  object : Shape
  point : Tuple
  eyev : Tuple
  normalv : Tuple
  inside : Bool
  over_point : Tuple
deriving DecidableEq, Repr

namespace Intersection

/-- ray.rs (lines 100–119): `Intersection::prepare_computation(ray)`: the hit
point is `ray.position(t)`, the eye vector the negated ray direction, and the
normal is flipped (with `inside = true`) when it opposes the eye vector
(`dot < 0`).  The `over_point` field is Modelled from the spec: it is absent
from the ray.rs snapshot but consumed by world.rs's `shade_hit`; per the spec,
"the \"over point\" is `point + normal × epsilon`" with the (possibly
flipped) computation normal. -/
def prepare_computation (sqrt : ℚ → ℚ) (i : Intersection) (ray : Ray) : Option Computation := do
  let point := ray.position i.t
  let eyev := ray.direction.neg
  let n ← i.object.normal_at sqrt point
  let flip := decide (n.dot eyev < 0)
  let normalv := if flip then n.neg else n
  pure { t := i.t
         object := i.object
         point := point
         eyev := eyev
         normalv := normalv
         inside := flip
         over_point := point.add (normalv.smul EPSILON) }

end Intersection

namespace Intersections

/-- ray.rs (lines 146–162): the scanning loop inside `Intersections::hit`.
`xs` is the full intersection list (the loop re-reads `self.at(index)` for
the best candidate so far), the second argument the not-yet-scanned suffix,
`i` the current position and the last argument `lowest_index`. -/
def hitGo (xs : List Intersection) : List Intersection → ℕ → Option ℕ → Option ℕ
  | [], _, lowest => lowest
  | intersect :: rest, i, lowest =>
    let lowest' :=
      if 0 < intersect.t then
        match lowest with
        | some index => if intersect.t < (xs.getD index default).t then some i else some index
        | none => some i
      else lowest
    hitGo xs rest (i + 1) lowest'

/-- ray.rs: `Intersections::hit()`: scan all intersections keeping the index
of the best strictly-positive `t` seen so far (strict `<`, so the earliest
index wins ties), and return the intersection at that index. -/
def hit (xs : List Intersection) : Option Intersection :=
  (hitGo xs xs 0 none).map fun i => xs.getD i default

/-- ray.rs: `Intersections::extend` appends the other set's members. -/
def extend (xs ys : List Intersection) : List Intersection := xs ++ ys

/-- ray.rs: `Intersections::sort` sorts ascending by `t` with the standard
stable sort (`sort_by` with `partial_cmp(..).unwrap()`; on the NaN-free
rationals of this model the comparator is total and never panics — the NaN
behaviour is analysed separately by `sortF`).  A stable comparison sort is
unique as a function, so the stable insertion sort is the model. -/
def sort (xs : List Intersection) : List Intersection :=
  List.insertionSort (fun a b => a.t ≤ b.t) xs

end Intersections

/-! ### The NaN model of `Intersections::sort`

`Intersections::sort` compares with `a.t.partial_cmp(&b.t).unwrap()`.  An
`f64` is modelled as `Option ℚ` with `none` for NaN, the only value on which
`partial_cmp` returns `None` and the `unwrap` panics. -/

/-- `f64::partial_cmp`: some ordering unless an operand is NaN. -/
def cmpF64 : Option ℚ → Option ℚ → Option Ordering
  | some a, some b => some (compare a b)
  | _, _ => none

/-- An intersection whose `t` is a full `f64` (`none` = NaN), for analysing
`Intersections::sort`. -/
structure IntersectionF where
  t : Option ℚ
  object : Shape
deriving DecidableEq, Repr

/-- The comparator of `Intersections::sort`:
`a.t.partial_cmp(&b.t)`, whose `unwrap` panics on `None`. -/
def cmpI (a b : IntersectionF) : Option Ordering := cmpF64 a.t b.t

/-- Insertion step of the stable comparison sort with a fallible comparator:
any `None` comparison aborts (the `unwrap` panic); otherwise the element
goes in front of the first strictly-greater element, after equal ones —
the placement of the stable stdlib sort. -/
def insertF (cmp : α → α → Option Ordering) (x : α) : List α → Option (List α)
  | [] => some [x]
  | y :: ys =>
    match cmp x y with
    | none => none
    | some Ordering.lt => some (x :: y :: ys)
    | some _ => (insertF cmp x ys).map fun zs => y :: zs

/-- The stable comparison sort with a fallible comparator, modelling
`sort_by` with the panicking comparator of `Intersections::sort`: a stable
comparison sort is unique as a function, so the stable insertion sort is the
model; `none` models the panic of the `unwrap`. -/
def sortF (cmp : α → α → Option Ordering) : List α → Option (List α)
  | [] => some []
  | x :: xs =>
    match sortF cmp xs with
    | none => none
    | some ys => insertF cmp x ys

/-- ray.rs (lines 164–171): `Intersections::sort` on intersections whose `t`
may be NaN. -/
def Intersections.sortModel (xs : List IntersectionF) : Option (List IntersectionF) :=
  sortF cmpI xs

/-- Ascending order of `t` on NaN-free intersections. -/
def leF (a b : IntersectionF) : Prop :=
  ∀ p q, a.t = some p → b.t = some q → p ≤ q

/-- light.rs (lines 62–99): `lighting`: resolve the base color (pattern via
`at_object` when present, else the material color), form the effective color,
the ambient term, and — unless the light is behind the surface
(`light_dot_normal < 0`) — the diffuse and specular terms; when `in_shadown`
return the ambient term alone.  `powf` models `f64::powf`. -/
def lighting (sqrt : ℚ → ℚ) (powf : ℚ → ℚ → ℚ) (material : Material) (object : Shape)
    (light : PointLight) (point eyev normalv : Tuple) (in_shadown : Bool) : Option Color := do
  let color ← match material.pattern with
    | some pattern => pattern.at_object sqrt object.transform point
    | none => pure material.color
  let effective_color := color.mulColor light.intensity
  let lightv := (light.position.sub point).normalize sqrt
  let ambient := effective_color.mulScalar material.ambient
  let light_dot_normal := lightv.dot normalv
  let (diffuse, specular) :=
    if light_dot_normal < 0 then (Color.black, Color.black)
    else
      let diffuse := (effective_color.mulScalar material.diffuse).mulScalar light_dot_normal
      let reflectv := lightv.neg.reflect normalv
      let reflect_dot_eye := reflectv.dot eyev
      if reflect_dot_eye ≤ 0 then (diffuse, Color.black)
      else
        let factor := powf reflect_dot_eye material.shininess
        (diffuse, (light.intensity.mulScalar material.specular).mulScalar factor)
  pure (if in_shadown then ambient else (ambient.add diffuse).add specular)

/-! ## world.rs -/

/-- world.rs: `World { light, objects }`. -/
structure World where
  light : Option PointLight
  objects : List Shape

namespace World

/-- world.rs: `World::new()`: no light, no objects. -/
def new : World := ⟨none, []⟩

/-- world.rs: `World::default_world_with_material`: a white light at
`(-10,10,-10)`, a unit sphere with the given material and a sphere scaled by
`0.5`. -/
def default_world_with_material (material : Material) : World :=
  { light := some ⟨Tuple.point (-10) 10 (-10), Color.white⟩
    objects := [⟨Matrix.identify, material, Geom.sphere⟩,
                ⟨Matrix.scaling (1/2) (1/2) (1/2), Material.new, Geom.sphere⟩] }

/-- world.rs: `World::default_world()`: the default two-sphere world with the
color `(0.8, 1.0, 0.6)`, diffuse 0.7 and specular 0.2 on the outer sphere. -/
def default_world : World :=
  default_world_with_material
    { Material.new with color := Color.new (8/10) 1 (6/10), diffuse := 7/10, specular := 2/10 }

/-- world.rs: `World::intersect(ray)`: the empty set when there are no
objects; otherwise intersect the ray with the first object, `extend` with the
intersections of every further object, and `sort` once. -/
def intersect (sqrt : ℚ → ℚ) (w : World) (ray : Ray) : Option (List Intersection) :=
  match w.objects with
  | [] => some []
  | o :: rest => do
    let first ← ray.intersectShape sqrt o
    let all ← rest.foldlM (fun acc o => do
      pure (Intersections.extend acc (← ray.intersectShape sqrt o))) first
    pure (Intersections.sort all)

/-- world.rs: `World::is_shadowed(point)`: cast a ray from the point toward
the light and report a shadow when a hit exists closer than the light
(`h.t < distance`); `false` without a light. -/
def is_shadowed (sqrt : ℚ → ℚ) (w : World) (point : Tuple) : Option Bool :=
  match w.light with
  | some light => do
    let v := light.position.sub point
    let distance := v.magnitude sqrt
    let direction := v.normalize sqrt
    let r := Ray.new point direction
    let intersections ← w.intersect sqrt r
    pure (match Intersections.hit intersections with
          | some h => decide (h.t < distance)
          | none => false)
  | none => some false

/-- world.rs (lines 64–79): `World::shade_hit(comps)`: with a light, shadow
test the computation's `over_point` and call `lighting` with the hit shape's
material, the shape, the light, the raw hit point, eye vector, normal and the
shadow flag; without a light, black. -/
def shade_hit (sqrt : ℚ → ℚ) (powf : ℚ → ℚ → ℚ) (w : World) (comps : Computation) :
    Option Color :=
  match w.light with
  | some light => do
    let is_shadowed ← w.is_shadowed sqrt comps.over_point
    lighting sqrt powf comps.object.material comps.object light
      comps.point comps.eyev comps.normalv is_shadowed
  | none => some Color.black

/-- world.rs: `World::color_at(ray)`: intersect the world, take the hit (if
any), prepare its computation and shade it; black when nothing is hit. -/
def color_at (sqrt : ℚ → ℚ) (powf : ℚ → ℚ → ℚ) (w : World) (ray : Ray) : Option Color := do
  let intersections ← w.intersect sqrt ray
  match Intersections.hit intersections with
  | some hit => do
    let comps ← hit.prepare_computation sqrt ray
    w.shade_hit sqrt powf comps
  | none => pure Color.black

end World

/-! ## camera.rs -/

/-- camera.rs: `Camera`: grid dimensions, field of view, view transform and
the cached `half_width`/`half_height`/`pixel_size`. -/
structure Camera where
  hsize : ℕ
  vsize : ℕ
  field_of_view : ℚ
  transform : Matrix
  half_width : ℚ
  half_height : ℚ
  pixel_size : ℚ
deriving Repr

namespace Camera

/-- camera.rs: the private `Camera::pixel_size` helper: `half_view =
tan(field_of_view / 2)`; when `aspect = hsize / vsize ≥ 1` the half width is
`half_view` and the half height `half_view / aspect`, otherwise the reverse.
`tan` models `f64::tan`. -/
def halfDims (tan : ℚ → ℚ) (hsize vsize : ℕ) (field_of_view : ℚ) : ℚ × ℚ :=
  let half_view := tan (field_of_view / 2)
  let aspect := (hsize : ℚ) / (vsize : ℚ)
  if 1 ≤ aspect then (half_view, half_view / aspect)
  else (half_view * aspect, half_view)

/-- camera.rs: `Camera::new(hsize, vsize, field_of_view)`: identity transform,
halves from `halfDims`, and `pixel_size = half_width * 2 / hsize`. -/
def new (tan : ℚ → ℚ) (hsize vsize : ℕ) (field_of_view : ℚ) : Camera :=
  let hd := halfDims tan hsize vsize field_of_view
  { hsize := hsize
    vsize := vsize
    field_of_view := field_of_view
    transform := Matrix.identify
    half_width := hd.1
    half_height := hd.2
    pixel_size := hd.1 * 2 / (hsize : ℚ) }

/-- camera.rs: `Camera::ray_for_pixel(px, py)`: offsets to the pixel center,
world coordinates `half_width - xoffset` / `half_height - yoffset`, the pixel
point at `z = -1` and the origin both mapped through the inverse camera
transform (`unwrap` modelled by `Option`), and the normalized direction
between them. -/
def ray_for_pixel (sqrt : ℚ → ℚ) (c : Camera) (px py : ℕ) : Option Ray := do
  let xoffset := ((px : ℚ) + 1/2) * c.pixel_size
  let yoffset := ((py : ℚ) + 1/2) * c.pixel_size
  let world_x := c.half_width - xoffset
  let world_y := c.half_height - yoffset
  let inv ← c.transform.inverse
  let pixel := inv.mulTuple (Tuple.point world_x world_y (-1))
  let origin := inv.mulTuple (Tuple.point 0 0 0)
  let direction := (pixel.sub origin).normalize sqrt
  pure (Ray.new origin direction)

/-- camera.rs: the color of linear pixel index `i` in `Camera::render`'s
parallel map: `x = i % hsize`, `y = i / hsize`, then
`world.color_at(ray_for_pixel(x, y))`. -/
def pixelColor (sqrt : ℚ → ℚ) (powf : ℚ → ℚ → ℚ) (c : Camera) (w : World) (i : ℕ) :
    Option Color := do
  let ray ← c.ray_for_pixel sqrt (i % c.hsize) (i / c.hsize)
  w.color_at sqrt powf ray

/-- camera.rs: the sequential write-back loop of `Camera::render`: for each
`(i, color)` of the collected pixel vector, `write_pixel(i % hsize,
i / hsize, color)` into the canvas. -/
def writeBack (c : Camera) (image : Canvas) (pixels : List (ℕ × Color)) : Canvas :=
  pixels.foldl (fun image p => image.write_pixel (p.1 % c.hsize) (p.1 / c.hsize) p.2) image

/-- camera.rs (lines 58–81): `Camera::render(world)`: map every linear pixel
index of the `hsize × vsize` grid to its color (`rayon`'s ordered parallel
`collect` preserves the index order; a panic in any pixel, modelled by
`none`, aborts the render), then write the collected colors back into a fresh
canvas in enumeration order. -/
def render (sqrt : ℚ → ℚ) (powf : ℚ → ℚ → ℚ) (c : Camera) (w : World) : Option Canvas := do
  let n_pixels := c.hsize * c.vsize
  let pixels ← (List.range n_pixels).mapM (pixelColor sqrt powf c w)
  pure (writeBack c (Canvas.new c.hsize c.vsize) pixels.enum)

end Camera

/-! ## Theorems -/


theorem isqrtCount_eq_min (n m : ℕ) : isqrtCount n m = min m (Nat.sqrt n) := by
  induction m with
  | zero => simp [isqrtCount]
  | succ k ih =>
    have hd : isqrtCount n (k + 1) =
        isqrtCount n k + (if (k + 1) * (k + 1) ≤ n then 1 else 0) := rfl
    rw [hd, ih]
    by_cases h : (k + 1) * (k + 1) ≤ n
    · rw [if_pos h]
      have hk : k + 1 ≤ Nat.sqrt n := Nat.le_sqrt.mpr h
      omega
    · rw [if_neg h]
      have hk : ¬(k + 1 ≤ Nat.sqrt n) := fun hle => h (Nat.le_sqrt.mp hle)
      omega

theorem isqrt_eq_sqrt (n : ℕ) : isqrt n = Nat.sqrt n := by
  rw [isqrt, isqrtCount_eq_min]
  have := Nat.sqrt_le_self n
  omega

theorem isqrt_mul_self (s : ℕ) : isqrt (s * s) = s := by
  rw [isqrt_eq_sqrt, Nat.sqrt_eq]

theorem isqrt_lit_0 : isqrt 0 = 0 := rfl
theorem isqrt_lit_1 : isqrt 1 = 1 := rfl
theorem isqrt_lit_4 : isqrt 4 = 2 := rfl
theorem isqrt_lit_9 : isqrt 9 = 3 := rfl
theorem isqrt_lit_16 : isqrt 16 = 4 := rfl

namespace Matrix

theorem size_new (l : List ℚ) : (new l).size = isqrt l.length := rfl

theorem elements_new (l : List ℚ) : (new l).elements = l := rfl

/-- One unfolding step of `detFuel` at fuel 4, for controlled rewriting. -/
theorem detFuel_four (m : Matrix) :
    detFuel 4 m = if m.size = 2 then m.entry 0 0 * m.entry 1 1 - m.entry 0 1 * m.entry 1 0
    else ((List.range m.size).map fun i =>
      m.entry 0 i * (if (0 + i) % 2 = 0 then detFuel 3 (m.submatrix 0 i)
                     else -detFuel 3 (m.submatrix 0 i))).sum := rfl

theorem det2_expand (a b c d : ℚ) : (new [a, b, c, d]).determinant = a * d - b * c := rfl

theorem det3_expand (a b c d e f g h i : ℚ) :
    (new [a, b, c, d, e, f, g, h, i]).determinant =
      a * (e * i - f * h) - b * (d * i - f * g) + c * (d * h - e * g) := by
  simp [determinant, detFuel, submatrix, new, entry, List.range_succ, isqrt_lit_9, isqrt_lit_4]
  ring

theorem sub44_00 (a b c d e f g h i j k l m n o p : ℚ) :
    (new [a, b, c, d, e, f, g, h, i, j, k, l, m, n, o, p]).submatrix 0 0 = new [f, g, h, j, k, l, n, o, p] := by
  simp [submatrix, new, entry, List.range_succ, isqrt_lit_16]

theorem sub44_01 (a b c d e f g h i j k l m n o p : ℚ) :
    (new [a, b, c, d, e, f, g, h, i, j, k, l, m, n, o, p]).submatrix 0 1 = new [e, g, h, i, k, l, m, o, p] := by
  simp [submatrix, new, entry, List.range_succ, isqrt_lit_16]

theorem sub44_02 (a b c d e f g h i j k l m n o p : ℚ) :
    (new [a, b, c, d, e, f, g, h, i, j, k, l, m, n, o, p]).submatrix 0 2 = new [e, f, h, i, j, l, m, n, p] := by
  simp [submatrix, new, entry, List.range_succ, isqrt_lit_16]

theorem sub44_03 (a b c d e f g h i j k l m n o p : ℚ) :
    (new [a, b, c, d, e, f, g, h, i, j, k, l, m, n, o, p]).submatrix 0 3 = new [e, f, g, i, j, k, m, n, o] := by
  simp [submatrix, new, entry, List.range_succ, isqrt_lit_16]

theorem sub44_10 (a b c d e f g h i j k l m n o p : ℚ) :
    (new [a, b, c, d, e, f, g, h, i, j, k, l, m, n, o, p]).submatrix 1 0 = new [b, c, d, j, k, l, n, o, p] := by
  simp [submatrix, new, entry, List.range_succ, isqrt_lit_16]

theorem sub44_11 (a b c d e f g h i j k l m n o p : ℚ) :
    (new [a, b, c, d, e, f, g, h, i, j, k, l, m, n, o, p]).submatrix 1 1 = new [a, c, d, i, k, l, m, o, p] := by
  simp [submatrix, new, entry, List.range_succ, isqrt_lit_16]

theorem sub44_12 (a b c d e f g h i j k l m n o p : ℚ) :
    (new [a, b, c, d, e, f, g, h, i, j, k, l, m, n, o, p]).submatrix 1 2 = new [a, b, d, i, j, l, m, n, p] := by
  simp [submatrix, new, entry, List.range_succ, isqrt_lit_16]

theorem sub44_13 (a b c d e f g h i j k l m n o p : ℚ) :
    (new [a, b, c, d, e, f, g, h, i, j, k, l, m, n, o, p]).submatrix 1 3 = new [a, b, c, i, j, k, m, n, o] := by
  simp [submatrix, new, entry, List.range_succ, isqrt_lit_16]

theorem sub44_20 (a b c d e f g h i j k l m n o p : ℚ) :
    (new [a, b, c, d, e, f, g, h, i, j, k, l, m, n, o, p]).submatrix 2 0 = new [b, c, d, f, g, h, n, o, p] := by
  simp [submatrix, new, entry, List.range_succ, isqrt_lit_16]

theorem sub44_21 (a b c d e f g h i j k l m n o p : ℚ) :
    (new [a, b, c, d, e, f, g, h, i, j, k, l, m, n, o, p]).submatrix 2 1 = new [a, c, d, e, g, h, m, o, p] := by
  simp [submatrix, new, entry, List.range_succ, isqrt_lit_16]

theorem sub44_22 (a b c d e f g h i j k l m n o p : ℚ) :
    (new [a, b, c, d, e, f, g, h, i, j, k, l, m, n, o, p]).submatrix 2 2 = new [a, b, d, e, f, h, m, n, p] := by
  simp [submatrix, new, entry, List.range_succ, isqrt_lit_16]

theorem sub44_23 (a b c d e f g h i j k l m n o p : ℚ) :
    (new [a, b, c, d, e, f, g, h, i, j, k, l, m, n, o, p]).submatrix 2 3 = new [a, b, c, e, f, g, m, n, o] := by
  simp [submatrix, new, entry, List.range_succ, isqrt_lit_16]

theorem sub44_30 (a b c d e f g h i j k l m n o p : ℚ) :
    (new [a, b, c, d, e, f, g, h, i, j, k, l, m, n, o, p]).submatrix 3 0 = new [b, c, d, f, g, h, j, k, l] := by
  simp [submatrix, new, entry, List.range_succ, isqrt_lit_16]

theorem sub44_31 (a b c d e f g h i j k l m n o p : ℚ) :
    (new [a, b, c, d, e, f, g, h, i, j, k, l, m, n, o, p]).submatrix 3 1 = new [a, c, d, e, g, h, i, k, l] := by
  simp [submatrix, new, entry, List.range_succ, isqrt_lit_16]

theorem sub44_32 (a b c d e f g h i j k l m n o p : ℚ) :
    (new [a, b, c, d, e, f, g, h, i, j, k, l, m, n, o, p]).submatrix 3 2 = new [a, b, d, e, f, h, i, j, l] := by
  simp [submatrix, new, entry, List.range_succ, isqrt_lit_16]

theorem sub44_33 (a b c d e f g h i j k l m n o p : ℚ) :
    (new [a, b, c, d, e, f, g, h, i, j, k, l, m, n, o, p]).submatrix 3 3 = new [a, b, c, e, f, g, i, j, k] := by
  simp [submatrix, new, entry, List.range_succ, isqrt_lit_16]

theorem detFuel3_eq (l : List ℚ) (h : l.length = 9) :
    detFuel 3 (new l) = (new l).determinant := by
  simp [determinant, size_new, h, isqrt_lit_9]


theorem det4_expand (a b c d e f g h i j k l m n o p : ℚ) :
    (new [a, b, c, d, e, f, g, h, i, j, k, l, m, n, o, p]).determinant =
      a * (f * (k * p - l * o) - g * (j * p - l * n) + h * (j * o - k * n))
      - b * (e * (k * p - l * o) - g * (i * p - l * m) + h * (i * o - k * m))
      + c * (e * (j * p - l * n) - f * (i * p - l * m) + h * (i * n - j * m))
      - d * (e * (j * o - k * n) - f * (i * o - k * m) + g * (i * n - j * m)) := by
  have h0 : (new [a, b, c, d, e, f, g, h, i, j, k, l, m, n, o, p]).determinant =
      detFuel 4 (new [a, b, c, d, e, f, g, h, i, j, k, l, m, n, o, p]) := by
    simp [determinant, size_new, isqrt_lit_16]
  rw [h0, detFuel_four]
  norm_num [size_new, elements_new, isqrt_lit_16, List.range_succ]
  rw [sub44_00, sub44_01, sub44_02, sub44_03]
  rw [detFuel3_eq _ (by simp), detFuel3_eq _ (by simp), detFuel3_eq _ (by simp),
    detFuel3_eq _ (by simp)]
  rw [det3_expand, det3_expand, det3_expand, det3_expand]
  norm_num [entry, elements_new, size_new, isqrt_lit_16]
  ring

end Matrix

/-- The loop invariant of `Intersections.hitGo` after scanning the first `i`
intersections: `none` means no strictly-positive `t` has been seen; `some b`
means `b` is the first index among the first `i` attaining the minimal
strictly-positive `t`. -/
def HitInv (xs : List Intersection) (i : ℕ) : Option ℕ → Prop
  | none => ∀ j, j < i → ¬ 0 < (xs.getD j default).t
  | some b => b < i ∧ b < xs.length ∧ 0 < (xs.getD b default).t ∧
      (∀ j, j < i → 0 < (xs.getD j default).t →
        (xs.getD b default).t ≤ (xs.getD j default).t) ∧
      (∀ j, j < b → 0 < (xs.getD j default).t →
        (xs.getD b default).t < (xs.getD j default).t)

theorem hitGo_spec (xs : List Intersection) :
    ∀ (rest : List Intersection) (i : ℕ) (best : Option ℕ),
      rest = xs.drop i → HitInv xs i best →
      HitInv xs (i + rest.length) (Intersections.hitGo xs rest i best) := by
  intro rest
  induction rest with
  | nil => intro i best _ hinv; simpa [Intersections.hitGo] using hinv
  | cons x rest' ih =>
    intro i best hdrop hinv
    have hi : i < xs.length := by
      by_contra hge
      rw [List.drop_eq_nil_of_le (Nat.le_of_not_lt hge)] at hdrop
      exact List.noConfusion hdrop
    rw [List.drop_eq_getElem_cons hi] at hdrop
    injection hdrop with hx hrest'
    have hxD : xs.getD i default = x := by
      rw [List.getD_eq_getElem xs default hi, ← hx]
    have hstep : ∀ best', Intersections.hitGo xs (x :: rest') i best' =
        Intersections.hitGo xs rest' (i + 1)
          (if 0 < x.t then
            match best' with
            | some index => if x.t < (xs.getD index default).t then some i else some index
            | none => some i
          else best') := by
      intro best'
      rfl
    rw [hstep]
    have hlen : i + (x :: rest').length = (i + 1) + rest'.length := by
      simp [List.length_cons]
      omega
    rw [hlen]
    apply ih (i + 1) _ hrest'
    by_cases hpos : 0 < x.t
    · rw [if_pos hpos]
      cases best with
      | none =>
        show HitInv xs (i + 1) (some i)
        refine ⟨Nat.lt_succ_self i, hi, by rwa [hxD], ?_, ?_⟩
        · intro j hj hjpos
          rcases Nat.lt_succ_iff_lt_or_eq.mp hj with hj' | rfl
          · exact absurd hjpos (hinv j hj')
          · exact le_refl _
        · intro j hj hjpos
          exact absurd hjpos (hinv j hj)
      | some b =>
        obtain ⟨hb_lt, hb_len, hb_pos, hb_min, hb_first⟩ := hinv
        show HitInv xs (i + 1)
          (if x.t < (xs.getD b default).t then some i else some b)
        by_cases hless : x.t < (xs.getD b default).t
        · rw [if_pos hless]
          refine ⟨Nat.lt_succ_self i, hi, by rwa [hxD], ?_, ?_⟩
          · intro j hj hjpos
            rcases Nat.lt_succ_iff_lt_or_eq.mp hj with hj' | rfl
            · calc (xs.getD i default).t ≤ (xs.getD b default).t := by
                    rw [hxD]; exact le_of_lt hless
              _ ≤ (xs.getD j default).t := hb_min j hj' hjpos
            · exact le_refl _
          · intro j hj hjpos
            calc (xs.getD i default).t < (xs.getD b default).t := by rw [hxD]; exact hless
            _ ≤ (xs.getD j default).t := hb_min j hj hjpos
        · rw [if_neg hless]
          refine ⟨Nat.lt_succ_of_lt hb_lt, hb_len, hb_pos, ?_, hb_first⟩
          intro j hj hjpos
          rcases Nat.lt_succ_iff_lt_or_eq.mp hj with hj' | rfl
          · exact hb_min j hj' hjpos
          · rw [hxD]
            exact le_of_not_lt hless
    · rw [if_neg hpos]
      cases best with
      | none =>
        show HitInv xs (i + 1) none
        intro j hj
        rcases Nat.lt_succ_iff_lt_or_eq.mp hj with hj' | rfl
        · exact hinv j hj'
        · rwa [hxD]
      | some b =>
        obtain ⟨hb_lt, hb_len, hb_pos, hb_min, hb_first⟩ := hinv
        show HitInv xs (i + 1) (some b)
        refine ⟨Nat.lt_succ_of_lt hb_lt, hb_len, hb_pos, ?_, hb_first⟩
        intro j hj hjpos
        rcases Nat.lt_succ_iff_lt_or_eq.mp hj with hj' | rfl
        · exact hb_min j hj' hjpos
        · rw [hxD] at hjpos
          exact absurd hjpos hpos

/-- C2: `hit()` returns `none` exactly when every intersection has `t ≤ 0`
(an intersection with `t = 0` or `t < 0` is never selected); when it returns
an intersection, that intersection is a member with strictly positive `t`,
its `t` is minimal among all strictly positive `t`s, and it sits at an index
before which every strictly-positive `t` is strictly larger — so ties on the
minimal positive `t` go to the intersection earliest in input order. -/
theorem hit_spec (xs : List Intersection) :
    (Intersections.hit xs = none ↔ ∀ x ∈ xs, x.t ≤ 0) ∧
    ∀ x, Intersections.hit xs = some x →
      0 < x.t ∧ x ∈ xs ∧ (∀ y ∈ xs, 0 < y.t → x.t ≤ y.t) ∧
      ∃ b, b < xs.length ∧ xs.getD b default = x ∧
        ∀ j, j < b → 0 < (xs.getD j default).t →
          x.t < (xs.getD j default).t := by
  have hfinal : HitInv xs xs.length (Intersections.hitGo xs xs 0 none) := by
    have h0 : HitInv xs 0 none := fun j hj => absurd hj (Nat.not_lt_zero j)
    have := hitGo_spec xs xs 0 none (by simp) h0
    simpa using this
  constructor
  · constructor
    · intro hnone x hx
      have hgo : Intersections.hitGo xs xs 0 none = none := by
        unfold Intersections.hit at hnone
        exact Option.map_eq_none.mp hnone
      rw [hgo] at hfinal
      obtain ⟨j, hj, rfl⟩ := List.mem_iff_getElem.mp hx
      have := hfinal j hj
      rw [List.getD_eq_getElem xs default hj] at this
      exact le_of_not_lt this
    · intro hall
      unfold Intersections.hit
      cases hgo : Intersections.hitGo xs xs 0 none with
      | none => rfl
      | some b =>
        rw [hgo] at hfinal
        obtain ⟨_, hb_len, hb_pos, _, _⟩ := hfinal
        have hmem : xs.getD b default ∈ xs := by
          rw [List.getD_eq_getElem xs default hb_len]
          exact List.getElem_mem hb_len
        exact absurd hb_pos (not_lt.mpr (hall _ hmem))
  · intro x hx
    unfold Intersections.hit at hx
    cases hgo : Intersections.hitGo xs xs 0 none with
    | none => rw [hgo] at hx; exact Option.noConfusion hx
    | some b =>
      rw [hgo] at hx
      have hxe : xs.getD b default = x := by
        simpa using hx
      rw [hgo] at hfinal
      obtain ⟨_, hb_len, hb_pos, hb_min, hb_first⟩ := hfinal
      rw [hxe] at hb_pos hb_min hb_first
      refine ⟨hb_pos, ?_, ?_, b, hb_len, hxe, hb_first⟩
      · rw [← hxe, List.getD_eq_getElem xs default hb_len]
        exact List.getElem_mem hb_len
      · intro y hy hypos
        obtain ⟨j, hj, rfl⟩ := List.mem_iff_getElem.mp hy
        have := hb_min j hj (by rwa [List.getD_eq_getElem xs default hj])
        rwa [List.getD_eq_getElem xs default hj] at this

/-- Witness for `hit_spec`: on the set `{5, 7, -3, 2}` the hit is the
intersection with `t = 2`. -/
theorem hit_spec_witness :
    0 < (2 : ℚ) ∧ (⟨2, default⟩ : Intersection) ∈
      ([⟨5, default⟩, ⟨7, default⟩, ⟨-3, default⟩, ⟨2, default⟩] : List Intersection) := by
  have h := (hit_spec [⟨5, default⟩, ⟨7, default⟩, ⟨-3, default⟩, ⟨2, default⟩]).2
    ⟨2, default⟩ (by norm_num [Intersections.hit, Intersections.hitGo])
  exact ⟨h.1, h.2.1⟩

theorem cmpF64_none {a b : Option ℚ} (h : cmpF64 a b = none) : a = none ∨ b = none := by
  cases a with
  | none => exact Or.inl rfl
  | some p =>
    cases b with
    | none => exact Or.inr rfl
    | some q => exact absurd h (by simp [cmpF64])

theorem insertF_sound (x : IntersectionF) (hx : x.t ≠ none) :
    ∀ ys : List IntersectionF, (∀ y ∈ ys, y.t ≠ none) →
      ∃ zs, insertF cmpI x ys = some zs ∧ zs.Perm (x :: ys) ∧
        (ys.Sorted leF → zs.Sorted leF) := by
  intro ys
  induction ys with
  | nil =>
    intro _
    exact ⟨[x], rfl, List.Perm.refl _, fun _ => List.sorted_singleton x⟩
  | cons y ys ih =>
    intro hys
    obtain ⟨p, hp⟩ := Option.ne_none_iff_exists'.mp hx
    obtain ⟨q, hq⟩ := Option.ne_none_iff_exists'.mp (hys y (List.mem_cons_self y ys))
    have hcmp : cmpI x y = some (compare p q) := by
      simp [cmpI, cmpF64, hp, hq]
    cases hc : compare p q with
    | lt =>
      refine ⟨x :: y :: ys, ?_, List.Perm.refl _, ?_⟩
      · simp [insertF, hcmp, hc]
      · intro hs
        have hpq : p < q := by
          rw [compare_lt_iff_lt] at hc
          exact hc
        rw [List.sorted_cons]
        refine ⟨?_, hs⟩
        intro z hz
        rcases List.mem_cons.mp hz with rfl | hz'
        · intro p' q' hp' hq'
          rw [hp] at hp'
          rw [hq] at hq'
          injection hp' with hp'
          injection hq' with hq'
          rw [← hp', ← hq']
          exact le_of_lt hpq
        · intro p' r hp' hr
          rw [hp] at hp'
          injection hp' with hp'
          have hyz := List.rel_of_sorted_cons hs z hz'
          have := hyz q r hq hr
          rw [← hp']
          exact le_trans (le_of_lt hpq) this
    | eq =>
      have hqp : q ≤ p := by
        rw [compare_eq_iff_eq] at hc
        exact le_of_eq hc.symm
      obtain ⟨zs, hzs, hperm, hsort⟩ := ih fun z hz => hys z (List.mem_cons_of_mem y hz)
      refine ⟨y :: zs, ?_, ?_, ?_⟩
      · simp [insertF, hcmp, hc, hzs]
      · exact List.Perm.trans (List.Perm.cons y hperm) (List.Perm.swap x y ys)
      · intro hs
        rw [List.sorted_cons]
        refine ⟨?_, hsort (List.Sorted.of_cons hs)⟩
        intro z hz
        rcases List.mem_cons.mp (hperm.mem_iff.mp hz) with rfl | hz'
        · intro q' p' hq' hp'
          rw [hq] at hq'
          rw [hp] at hp'
          injection hq' with hq'
          injection hp' with hp'
          rw [← hq', ← hp']
          exact hqp
        · exact List.rel_of_sorted_cons hs z hz'
    | gt =>
      have hqp : q ≤ p := by
        rw [compare_gt_iff_gt] at hc
        exact le_of_lt hc
      obtain ⟨zs, hzs, hperm, hsort⟩ := ih fun z hz => hys z (List.mem_cons_of_mem y hz)
      refine ⟨y :: zs, ?_, ?_, ?_⟩
      · simp [insertF, hcmp, hc, hzs]
      · exact List.Perm.trans (List.Perm.cons y hperm) (List.Perm.swap x y ys)
      · intro hs
        rw [List.sorted_cons]
        refine ⟨?_, hsort (List.Sorted.of_cons hs)⟩
        intro z hz
        rcases List.mem_cons.mp (hperm.mem_iff.mp hz) with rfl | hz'
        · intro q' p' hq' hp'
          rw [hq] at hq'
          rw [hp] at hp'
          injection hq' with hq'
          injection hp' with hp'
          rw [← hq', ← hp']
          exact hqp
        · exact List.rel_of_sorted_cons hs z hz'

theorem sortF_sound (xs : List IntersectionF) (hxs : ∀ x ∈ xs, x.t ≠ none) :
    ∃ ys, sortF cmpI xs = some ys ∧ ys.Perm xs ∧ ys.Sorted leF := by
  induction xs with
  | nil => exact ⟨[], rfl, List.Perm.refl _, List.sorted_nil⟩
  | cons x xs ih =>
    obtain ⟨ys, hys, hperm, hsorted⟩ := ih fun z hz => hxs z (List.mem_cons_of_mem x hz)
    obtain ⟨zs, hzs, hperm', hsort'⟩ :=
      insertF_sound x (hxs x (List.mem_cons_self x xs)) ys
        (fun z hz => hxs z (List.mem_cons_of_mem x (hperm.mem_iff.mp hz)))
    refine ⟨zs, ?_, ?_, hsort' hsorted⟩
    · simp [sortF, hys, hzs]
    · exact List.Perm.trans hperm' (List.Perm.cons x hperm)

/-- C9: when every `t` is non-NaN, `Intersections::sort` succeeds (the
`unwrap` of the partial comparison never panics) and arranges the
intersections in ascending order of `t` (a permutation of the input, sorted);
and a panic of that `unwrap` (`none`) is reached only when some `t` is NaN. -/
theorem sort_spec (xs : List IntersectionF) :
    ((∀ x ∈ xs, x.t ≠ none) →
      ∃ ys, Intersections.sortModel xs = some ys ∧ ys.Perm xs ∧ ys.Sorted leF) ∧
    (Intersections.sortModel xs = none → ∃ x ∈ xs, x.t = none) := by
  constructor
  · exact fun h => sortF_sound xs h
  · intro hnone
    by_contra hno
    push_neg at hno
    obtain ⟨ys, hys, _, _⟩ := sortF_sound xs hno
    rw [Intersections.sortModel] at hnone
    rw [hnone] at hys
    exact Option.noConfusion hys

/-- Witness for `sort_spec`: a NaN-free three-element intersection set sorts
successfully. -/
theorem sort_spec_witness :
    ∃ ys, Intersections.sortModel
        [⟨some 7, default⟩, ⟨some 1, default⟩, ⟨some 4, default⟩] = some ys ∧
      ys.Perm [⟨some 7, default⟩, ⟨some 1, default⟩, ⟨some 4, default⟩] ∧
      ys.Sorted leF :=
  (sort_spec [⟨some 7, default⟩, ⟨some 1, default⟩, ⟨some 4, default⟩]).1 (by decide)

/-- Evaluation: inverting the identity matrix yields the identity matrix. -/
theorem identify_inverse : Matrix.identify.inverse = some Matrix.identify := by
  norm_num [Matrix.inverse, Matrix.identify, Matrix.det4_expand, equal_f64, EPSILON,
    Matrix.cofactor, Matrix.minor, List.range_succ,
    Matrix.sub44_00, Matrix.sub44_01, Matrix.sub44_02, Matrix.sub44_03,
    Matrix.sub44_10, Matrix.sub44_11, Matrix.sub44_12, Matrix.sub44_13,
    Matrix.sub44_20, Matrix.sub44_21, Matrix.sub44_22, Matrix.sub44_23,
    Matrix.sub44_30, Matrix.sub44_31, Matrix.sub44_32, Matrix.sub44_33,
    Matrix.det3_expand, Matrix.size_new, Matrix.elements_new, isqrt_lit_16]

theorem ratSqrt_zero : Rat.sqrt 0 = 0 := by
  rw [show (0 : ℚ) = 0 * 0 by norm_num, Rat.sqrt_eq]
  norm_num

theorem ratSqrt_one : Rat.sqrt 1 = 1 := by
  rw [show (1 : ℚ) = 1 * 1 by norm_num, Rat.sqrt_eq]
  norm_num

theorem ratSqrt_four : Rat.sqrt 4 = 2 := by
  rw [show (4 : ℚ) = 2 * 2 by norm_num, Rat.sqrt_eq]
  norm_num

theorem ratSqrt_hundred : Rat.sqrt 100 = 10 := by
  rw [show (100 : ℚ) = 10 * 10 by norm_num, Rat.sqrt_eq]
  norm_num

/-- C5: intersecting the unit sphere at the origin (identity transform):
the ray from `(0,0,-5)` toward `+z` yields exactly `t = 4` and `t = 6`; the
tangent ray from `(0,1,-5)` yields `t = 5` twice; the ray from `(0,2,-5)`
yields no intersections; the ray from the origin yields `t = -1` and
`t = 1`.  In general a negative discriminant yields the empty result, and
any returned root pair is ordered ascending.  The hypotheses pin the values
of the `sqrt` model at the discriminants that occur (exact for `f64`). -/
theorem sphere_intersections (sqrt : ℚ → ℚ)
    (h4 : sqrt 4 = 2) (h0 : sqrt 0 = 0) (hnn : ∀ q, 0 ≤ q → 0 ≤ sqrt q) :
    (Ray.intersectSphere sqrt (Ray.new (Tuple.point 0 0 (-5)) (Tuple.vector 0 0 1)) Sphere.new
        = some [⟨4, Sphere.new⟩, ⟨6, Sphere.new⟩]) ∧
    (Ray.intersectSphere sqrt (Ray.new (Tuple.point 0 1 (-5)) (Tuple.vector 0 0 1)) Sphere.new
        = some [⟨5, Sphere.new⟩, ⟨5, Sphere.new⟩]) ∧
    (Ray.intersectSphere sqrt (Ray.new (Tuple.point 0 2 (-5)) (Tuple.vector 0 0 1)) Sphere.new
        = some []) ∧
    (Ray.intersectSphere sqrt (Ray.new (Tuple.point 0 0 0) (Tuple.vector 0 0 1)) Sphere.new
        = some [⟨-1, Sphere.new⟩, ⟨1, Sphere.new⟩]) ∧
    (∀ (r : Ray) (s : Shape) (inv : Matrix), s.transform.inverse = some inv →
      Ray.sphereDiscriminant (r.transform inv) < 0 →
      Ray.intersectSphere sqrt r s = some []) ∧
    (∀ (r : Ray) (s : Shape) (l : List Intersection),
      Ray.intersectSphere sqrt r s = some l →
      l = [] ∨ ∃ i1 i2, l = [i1, i2] ∧ i1.t ≤ i2.t) := by
  refine ⟨?_, ?_, ?_, ?_, ?_, ?_⟩
  · simp only [Ray.intersectSphere, Sphere.new]
    rw [identify_inverse]
    norm_num [Option.bind_eq_bind, Option.some_bind, Ray.transform, Ray.new,
      Matrix.mulTuple, Matrix.entry, Matrix.identify, Matrix.elements_new, Matrix.size_new,
      isqrt_lit_16, Tuple.point, Tuple.vector, Tuple.new, Tuple.sub, Tuple.dot, h4]
  · simp only [Ray.intersectSphere, Sphere.new]
    rw [identify_inverse]
    norm_num [Option.bind_eq_bind, Option.some_bind, Ray.transform, Ray.new,
      Matrix.mulTuple, Matrix.entry, Matrix.identify, Matrix.elements_new, Matrix.size_new,
      isqrt_lit_16, Tuple.point, Tuple.vector, Tuple.new, Tuple.sub, Tuple.dot, h0]
  · simp only [Ray.intersectSphere, Sphere.new]
    rw [identify_inverse]
    norm_num [Option.bind_eq_bind, Option.some_bind, Ray.transform, Ray.new,
      Matrix.mulTuple, Matrix.entry, Matrix.identify, Matrix.elements_new, Matrix.size_new,
      isqrt_lit_16, Tuple.point, Tuple.vector, Tuple.new, Tuple.sub, Tuple.dot]
  · simp only [Ray.intersectSphere, Sphere.new]
    rw [identify_inverse]
    norm_num [Option.bind_eq_bind, Option.some_bind, Ray.transform, Ray.new,
      Matrix.mulTuple, Matrix.entry, Matrix.identify, Matrix.elements_new, Matrix.size_new,
      isqrt_lit_16, Tuple.point, Tuple.vector, Tuple.new, Tuple.sub, Tuple.dot, h4]
  · intro r s inv hinv hneg
    unfold Ray.intersectSphere
    rw [hinv]
    simp only [Ray.sphereDiscriminant] at hneg
    simp only [Option.bind_eq_bind, Option.some_bind]
    split
    · rfl
    · next hcond => exact absurd hneg hcond
  · intro r s l h
    unfold Ray.intersectSphere at h
    cases hinv : s.transform.inverse with
    | none =>
      rw [hinv] at h
      exact absurd h (by simp)
    | some inv =>
      rw [hinv] at h
      simp only [Option.bind_eq_bind, Option.some_bind, Option.pure_def,
        Option.some.injEq] at h
      split at h
      · exact Or.inl h.symm
      · next hd =>
        refine Or.inr ⟨_, _, h.symm, ?_⟩
        dsimp only
        have ha : 0 ≤ (r.transform inv).direction.dot (r.transform inv).direction := by
          simp only [Tuple.dot]
          nlinarith [sq_nonneg (r.transform inv).direction.x,
            sq_nonneg (r.transform inv).direction.y,
            sq_nonneg (r.transform inv).direction.z,
            sq_nonneg (r.transform inv).direction.w]
        have hs := hnn _ (le_of_not_lt hd)
        rcases eq_or_lt_of_le ha with hz | hpos
        · rw [← hz]
          norm_num
        · rw [div_le_div_right (by linarith : (0 : ℚ) <
            2 * ((r.transform inv).direction.dot (r.transform inv).direction))]
          linarith

/-- Witness for `sphere_intersections`: with `Rat.sqrt` for the `sqrt` model
(exact at 0 and 4), the ray from `(0,0,-5)` toward `+z` hits the unit sphere
at `t = 4` and `t = 6`. -/
theorem sphere_intersections_witness :
    Ray.intersectSphere Rat.sqrt
      (Ray.new (Tuple.point 0 0 (-5)) (Tuple.vector 0 0 1)) Sphere.new
      = some [⟨4, Sphere.new⟩, ⟨6, Sphere.new⟩] :=
  (sphere_intersections Rat.sqrt ratSqrt_four ratSqrt_zero
    (fun q _ => Rat.sqrt_nonneg q)).1

/-- C6: `lighting` with the default material (ambient 0.1, diffuse 0.9,
specular 0.9, shininess 200), eye and normal both `(0,0,-1)`, a white light
at `(0,0,-10)` and the point at the origin returns `(1.9, 1.9, 1.9)`; with
the light moved behind the surface to `(0,0,10)`, or with `in_shadow` set,
it returns the ambient term `(0.1, 0.1, 0.1)` alone.  The hypotheses pin the
`sqrt`/`powf` models at the values the computation visits (exact for
`f64`). -/
theorem lighting_cases (sqrt : ℚ → ℚ) (powf : ℚ → ℚ → ℚ)
    (h100 : sqrt 100 = 10) (hpow : powf 1 200 = 1) :
    (lighting sqrt powf Material.new Sphere.new
        ⟨Tuple.point 0 0 (-10), Color.white⟩
        (Tuple.point 0 0 0) (Tuple.vector 0 0 (-1)) (Tuple.vector 0 0 (-1)) false
      = some (Color.new (19/10) (19/10) (19/10))) ∧
    (lighting sqrt powf Material.new Sphere.new
        ⟨Tuple.point 0 0 10, Color.white⟩
        (Tuple.point 0 0 0) (Tuple.vector 0 0 (-1)) (Tuple.vector 0 0 (-1)) false
      = some (Color.new (1/10) (1/10) (1/10))) ∧
    (lighting sqrt powf Material.new Sphere.new
        ⟨Tuple.point 0 0 (-10), Color.white⟩
        (Tuple.point 0 0 0) (Tuple.vector 0 0 (-1)) (Tuple.vector 0 0 (-1)) true
      = some (Color.new (1/10) (1/10) (1/10))) := by
  refine ⟨?_, ?_, ?_⟩
  · norm_num [lighting, Material.new, Sphere.new, Color.white, Color.black, Color.new,
      Color.mulColor, Color.mulScalar, Color.add, Tuple.point, Tuple.vector, Tuple.new,
      Tuple.sub, Tuple.add, Tuple.neg, Tuple.smul, Tuple.dot, Tuple.reflect,
      Tuple.normalize, Tuple.magnitude, h100, hpow]
  · norm_num [lighting, Material.new, Sphere.new, Color.white, Color.black, Color.new,
      Color.mulColor, Color.mulScalar, Color.add, Tuple.point, Tuple.vector, Tuple.new,
      Tuple.sub, Tuple.add, Tuple.neg, Tuple.smul, Tuple.dot, Tuple.reflect,
      Tuple.normalize, Tuple.magnitude, h100]
  · norm_num [lighting, Material.new, Sphere.new, Color.white, Color.black, Color.new,
      Color.mulColor, Color.mulScalar, Color.add, Tuple.point, Tuple.vector, Tuple.new,
      Tuple.sub, Tuple.add, Tuple.neg, Tuple.smul, Tuple.dot, Tuple.reflect,
      Tuple.normalize, Tuple.magnitude, h100]

/-- Witness for `lighting_cases`: with `Rat.sqrt` and natural-exponent power
for the transcendental models, the head-on lighting case yields
`(1.9, 1.9, 1.9)`. -/
theorem lighting_cases_witness :
    lighting Rat.sqrt (fun x y => x ^ y.num.toNat) Material.new Sphere.new
        ⟨Tuple.point 0 0 (-10), Color.white⟩
        (Tuple.point 0 0 0) (Tuple.vector 0 0 (-1)) (Tuple.vector 0 0 (-1)) false
      = some (Color.new (19/10) (19/10) (19/10)) :=
  (lighting_cases Rat.sqrt (fun x y => x ^ y.num.toNat) ratSqrt_hundred (by simp)).1

/-- C7: a 201×101 camera with the default (identity) transform: the half
width is `tan(field_of_view / 2)` (since the aspect 201/101 is ≥ 1), the
pixel size is `2 × half_width / 201`, and the ray through the center pixel
`(100, 50)` has origin `(0,0,0)` and normalized direction `(0,0,-1)` — for
every field of view (in particular π/2) and every value of the `tan` model,
because the pixel offsets cancel the half extents exactly. -/
theorem ray_for_pixel_center (sqrt tan : ℚ → ℚ) (fov : ℚ) (h1 : sqrt 1 = 1) :
    (Camera.new tan 201 101 fov).half_width = tan (fov / 2) ∧
    (Camera.new tan 201 101 fov).pixel_size = tan (fov / 2) * 2 / 201 ∧
    (Camera.new tan 201 101 fov).ray_for_pixel sqrt 100 50 =
      some (Ray.new (Tuple.point 0 0 0) (Tuple.vector 0 0 (-1))) := by
  refine ⟨?_, ?_, ?_⟩
  · norm_num [Camera.new, Camera.halfDims]
  · norm_num [Camera.new, Camera.halfDims]
  · simp only [Camera.ray_for_pixel, Camera.new, Camera.halfDims]
    rw [identify_inverse]
    norm_num [Option.bind_eq_bind, Option.some_bind, Matrix.mulTuple, Matrix.entry,
      Matrix.identify, Matrix.elements_new, Matrix.size_new, isqrt_lit_16,
      Tuple.point, Tuple.vector, Tuple.new, Tuple.sub, Ray.new,
      Tuple.normalize, Tuple.magnitude]
    ring_nf
    norm_num [h1]

/-- Witness for `ray_for_pixel_center`: with `Rat.sqrt` as the `sqrt` model,
the center-pixel ray of the default 201×101 camera is
`((0,0,0), (0,0,-1))`. -/
theorem ray_for_pixel_center_witness :
    (Camera.new id 201 101 0).ray_for_pixel Rat.sqrt 100 50 =
      some (Ray.new (Tuple.point 0 0 0) (Tuple.vector 0 0 (-1))) :=
  (ray_for_pixel_center Rat.sqrt id 0 ratSqrt_one).2.2

/-- C1: for every intersection whose `prepare_computation` succeeds, the
resulting computation's `over_point` is the hit point plus the (possibly
flipped) surface normal scaled by `EPSILON`, the hit point is
`ray.position(t)`, and `shade_hit` feeds the over point — not the raw hit
point — to the shadow test, while `lighting` receives the raw hit point. -/
theorem prepare_computation_over_point (sqrt : ℚ → ℚ) (powf : ℚ → ℚ → ℚ)
    (i : Intersection) (ray : Ray) (comps : Computation)
    (h : i.prepare_computation sqrt ray = some comps) :
    comps.over_point = comps.point.add (comps.normalv.smul EPSILON) ∧
    comps.point = ray.position i.t ∧
    ∀ (w : World) (light : PointLight), w.light = some light →
      w.shade_hit sqrt powf comps =
        (w.is_shadowed sqrt comps.over_point).bind fun shadowed =>
          lighting sqrt powf comps.object.material comps.object light
            comps.point comps.eyev comps.normalv shadowed := by
  unfold Intersection.prepare_computation at h
  cases hn : i.object.normal_at sqrt (ray.position i.t) with
  | none =>
    simp [hn] at h
  | some n =>
    simp only [hn, Option.bind_eq_bind, Option.some_bind, Option.pure_def,
      Option.some.injEq] at h
    subst h
    refine ⟨rfl, rfl, ?_⟩
    intro w light hl
    unfold World.shade_hit
    rw [hl]
    simp only [Option.bind_eq_bind]

/-- Witness for `prepare_computation_over_point`: for the hit at `t = 4` of
the ray from `(0,0,-5)` toward `+z` on the unit sphere, the over point
`(0, 0, -1.00001)` is the hit point `(0,0,-1)` plus the normal `(0,0,-1)`
scaled by `EPSILON`. -/
theorem prepare_computation_over_point_witness :
    Tuple.new 0 0 (-(100001/100000)) 1 =
      (Tuple.new 0 0 (-1) 1).add ((Tuple.new 0 0 (-1) 0).smul EPSILON) := by
  have h := (prepare_computation_over_point Rat.sqrt (fun x y => x ^ y.num.toNat)
    ⟨4, Sphere.new⟩ (Ray.new (Tuple.point 0 0 (-5)) (Tuple.vector 0 0 1))
    ⟨4, Sphere.new, Tuple.new 0 0 (-1) 1, Tuple.new 0 0 (-1) 0, Tuple.new 0 0 (-1) 0,
      false, Tuple.new 0 0 (-(100001/100000)) 1⟩ ?_).1
  · exact h
  · simp only [Intersection.prepare_computation, Shape.normal_at, Sphere.new]
    rw [identify_inverse]
    norm_num [Shape.local_normal_at, Matrix.transpose, Matrix.mulTuple, Matrix.entry,
      Matrix.identify, Matrix.elements_new, Matrix.size_new, isqrt_lit_16, isqrt_lit_4,
      List.range_succ, Ray.position, Ray.new, Tuple.point, Tuple.vector, Tuple.new,
      Tuple.add, Tuple.sub, Tuple.neg, Tuple.smul, Tuple.dot, Tuple.normalize,
      Tuple.magnitude, ratSqrt_one, Option.bind_eq_bind, Option.some_bind, EPSILON]

theorem mapM'_some_length {α β : Type} (f : α → Option β) :
    ∀ (l : List α) (res : List β), List.mapM' f l = some res → res.length = l.length := by
  intro l
  induction l with
  | nil =>
    intro res h
    simp [List.mapM'] at h
    simp [← h]
  | cons a l ih =>
    intro res h
    simp only [List.mapM'] at h
    cases hfa : f a with
    | none => rw [hfa] at h; simp at h
    | some x =>
      rw [hfa] at h
      cases hml : List.mapM' f l with
      | none => rw [hml] at h; simp at h
      | some xs =>
        rw [hml] at h
        simp only [Option.bind_eq_bind, Option.some_bind, Option.pure_def,
          Option.some.injEq] at h
        rw [← h]
        simp [ih xs hml]

theorem mapM'_some_get? {α β : Type} (f : α → Option β) :
    ∀ (l : List α) (res : List β), List.mapM' f l = some res →
      ∀ (i : ℕ) (a : α), l.get? i = some a → f a = res.get? i := by
  intro l
  induction l with
  | nil =>
    intro res _ i a ha
    simp at ha
  | cons x l ih =>
    intro res h i a ha
    simp only [List.mapM'] at h
    cases hfx : f x with
    | none => rw [hfx] at h; simp at h
    | some b =>
      rw [hfx] at h
      cases hml : List.mapM' f l with
      | none => rw [hml] at h; simp at h
      | some xs =>
        rw [hml] at h
        simp only [Option.bind_eq_bind, Option.some_bind, Option.pure_def,
          Option.some.injEq] at h
        subst h
        cases i with
        | zero =>
          simp only [List.get?_cons_zero, Option.some.injEq] at ha
          subst ha
          simpa using hfx
        | succ i =>
          simp only [List.get?_cons_succ] at ha ⊢
          exact ih xs hml i a ha

theorem write_pixel_width (cv : Canvas) (x y : ℕ) (col : Color) :
    (cv.write_pixel x y col).width = cv.width := by
  unfold Canvas.write_pixel
  split
  · rfl
  · rfl

theorem write_pixel_height (cv : Canvas) (x y : ℕ) (col : Color) :
    (cv.write_pixel x y col).height = cv.height := by
  unfold Canvas.write_pixel
  split
  · rfl
  · rfl

theorem write_pixel_length (cv : Canvas) (x y : ℕ) (col : Color) :
    (cv.write_pixel x y col).pixels.length = cv.pixels.length := by
  unfold Canvas.write_pixel
  split
  · exact List.length_set cv.pixels _ _
  · rfl

/-- The write-back step of `Camera::render` at linear index `k` writes
exactly slot `k` of the canvas storage (and leaves the canvas unchanged when
`k` is out of range). -/
theorem write_pixel_linear (c : Camera) (cv : Canvas) (hw : cv.width = c.hsize)
    (hh : cv.height = c.vsize) (k : ℕ) (col : Color) :
    cv.write_pixel (k % c.hsize) (k / c.hsize) col =
      if k < c.hsize * c.vsize then ⟨c.hsize, c.vsize, cv.pixels.set k col⟩ else cv := by
  unfold Canvas.write_pixel
  by_cases h : k < c.hsize * c.vsize
  · have hpos : 0 < c.hsize := by
      rcases Nat.eq_zero_or_pos c.hsize with h0 | h0
      · rw [h0] at h; simp at h
      · exact h0
    rw [if_pos h, if_pos ⟨by rw [hw]; exact Nat.mod_lt _ hpos,
        by rw [hh]; exact (Nat.div_lt_iff_lt_mul hpos).mpr (by rwa [Nat.mul_comm])⟩]
    have hidx : k / c.hsize * cv.width + k % c.hsize = k := by
      rw [hw, Nat.mul_comm (k / c.hsize) c.hsize, Nat.div_add_mod]
    rw [hidx, hw, hh]
  · rw [if_neg h, if_neg]
    intro ⟨hx, hy⟩
    rcases Nat.eq_zero_or_pos c.hsize with h0 | h0
    · rw [hw, h0] at hx
      exact absurd hx (by simp)
    · rw [hh] at hy
      rw [hw] at hx
      exact h (by
        calc k = c.hsize * (k / c.hsize) + k % c.hsize := (Nat.div_add_mod k c.hsize).symm
        _ < c.hsize * (k / c.hsize) + c.hsize := by
              have := Nat.mod_lt k h0
              omega
        _ = c.hsize * (k / c.hsize + 1) := by ring
        _ ≤ c.hsize * c.vsize := Nat.mul_le_mul_left _ (by omega))

theorem writeBack_cons (c : Camera) (cv : Canvas) (p : ℕ × Color) (ps : List (ℕ × Color)) :
    Camera.writeBack c cv (p :: ps) =
      Camera.writeBack c (cv.write_pixel (p.1 % c.hsize) (p.1 / c.hsize) p.2) ps := rfl

theorem writeBack_dims (c : Camera) :
    ∀ (ps : List (ℕ × Color)) (cv : Canvas),
      (Camera.writeBack c cv ps).width = cv.width ∧
      (Camera.writeBack c cv ps).height = cv.height ∧
      (Camera.writeBack c cv ps).pixels.length = cv.pixels.length := by
  intro ps
  induction ps with
  | nil => exact fun cv => ⟨rfl, rfl, rfl⟩
  | cons p ps ih =>
    intro cv
    rw [writeBack_cons]
    obtain ⟨h1, h2, h3⟩ := ih (cv.write_pixel (p.1 % c.hsize) (p.1 / c.hsize) p.2)
    exact ⟨h1.trans (write_pixel_width cv _ _ _), h2.trans (write_pixel_height cv _ _ _),
      h3.trans (write_pixel_length cv _ _ _)⟩

/-- Pointwise effect of the sequential write-back loop over an enumerated
pixel list: slot `j` receives element `j - k` of the list when `j` lies in
the written window, and is untouched otherwise. -/
theorem writeBack_enumFrom_get? (c : Camera) :
    ∀ (l : List Color) (k : ℕ) (cv : Canvas),
      cv.width = c.hsize → cv.height = c.vsize →
      cv.pixels.length = c.hsize * c.vsize →
      ∀ j, (Camera.writeBack c cv (List.enumFrom k l)).pixels.get? j =
        if k ≤ j ∧ j < k + l.length ∧ j < c.hsize * c.vsize then l.get? (j - k)
        else cv.pixels.get? j := by
  intro l
  induction l with
  | nil =>
    intro k cv _ _ _ j
    simp only [List.length_nil]
    rw [if_neg (by omega)]
    rfl
  | cons col l ih =>
    intro k cv hw hh hlen j
    simp only [List.length_cons]
    have hzen : List.enumFrom k (col :: l) = (k, col) :: List.enumFrom (k + 1) l := rfl
    rw [hzen, writeBack_cons]
    have hstep := write_pixel_linear c cv hw hh k col
    by_cases hk : k < c.hsize * c.vsize
    · rw [if_pos hk] at hstep
      rw [hstep]
      rw [ih (k + 1) ⟨c.hsize, c.vsize, cv.pixels.set k col⟩ rfl rfl
        (by simpa using hlen) j]
      by_cases hj1 : k + 1 ≤ j ∧ j < k + 1 + l.length ∧ j < c.hsize * c.vsize
      · rw [if_pos hj1, if_pos (by omega)]
        have hsub : j - k = (j - (k + 1)) + 1 := by omega
        rw [hsub]
        rfl
      · rw [if_neg hj1]
        by_cases hjk : j = k
        · rw [hjk, if_pos (by omega)]
          have hjlen : k < cv.pixels.length := by omega
          have hset : ((⟨c.hsize, c.vsize, cv.pixels.set k col⟩ : Canvas)).pixels.get? k =
              some col := List.get?_set_eq_of_lt col hjlen
          rw [hset]
          simp
        · rw [if_neg (by omega)]
          exact List.get?_set_ne col cv.pixels (Ne.symm hjk)
    · rw [if_neg hk] at hstep
      rw [hstep]
      rw [ih (k + 1) cv hw hh hlen j]
      by_cases hj1 : k + 1 ≤ j ∧ j < k + 1 + l.length ∧ j < c.hsize * c.vsize
      · rw [if_pos hj1, if_pos (by omega)]
        have hsub : j - k = (j - (k + 1)) + 1 := by omega
        rw [hsub]
        rfl
      · rw [if_neg hj1, if_neg (by omega)]

/-- Two write-back steps at distinct linear indices (or with identical
payloads) commute on canvases of the camera's dimensions. -/
theorem write_pixel_comm (c : Camera) (p q : ℕ × Color)
    (hpq : p.1 ≠ q.1 ∨ p = q) (cv : Canvas)
    (hw : cv.width = c.hsize) (hh : cv.height = c.vsize) :
    (cv.write_pixel (p.1 % c.hsize) (p.1 / c.hsize) p.2).write_pixel
        (q.1 % c.hsize) (q.1 / c.hsize) q.2 =
      (cv.write_pixel (q.1 % c.hsize) (q.1 / c.hsize) q.2).write_pixel
        (p.1 % c.hsize) (p.1 / c.hsize) p.2 := by
  rcases hpq with hne | rfl
  · have hp := write_pixel_linear c cv hw hh p.1 p.2
    have hq := write_pixel_linear c cv hw hh q.1 q.2
    by_cases hpin : p.1 < c.hsize * c.vsize <;> by_cases hqin : q.1 < c.hsize * c.vsize
    · rw [if_pos hpin] at hp
      rw [if_pos hqin] at hq
      rw [hp, hq]
      have hp2 := write_pixel_linear c ⟨c.hsize, c.vsize, cv.pixels.set q.1 q.2⟩
        rfl rfl p.1 p.2
      have hq2 := write_pixel_linear c ⟨c.hsize, c.vsize, cv.pixels.set p.1 p.2⟩
        rfl rfl q.1 q.2
      rw [if_pos hpin] at hp2
      rw [if_pos hqin] at hq2
      rw [hp2, hq2]
      congr 1
      exact List.set_comm _ _ _ hne
    · rw [if_pos hpin] at hp
      rw [if_neg hqin] at hq
      rw [hq, hp]
      have hq2 := write_pixel_linear c ⟨c.hsize, c.vsize, cv.pixels.set p.1 p.2⟩
        rfl rfl q.1 q.2
      rw [if_neg hqin] at hq2
      exact hq2
    · rw [if_neg hpin] at hp
      rw [if_pos hqin] at hq
      rw [hp, hq]
      have hp2 := write_pixel_linear c ⟨c.hsize, c.vsize, cv.pixels.set q.1 q.2⟩
        rfl rfl p.1 p.2
      rw [if_neg hpin] at hp2
      exact hp2.symm
    · rw [if_neg hpin] at hp
      rw [if_neg hqin] at hq
      rw [hp, hq, hp]
  · rfl

/-- The write-back loop produces the same canvas for every permutation of a
pixel list whose entries are determined by their linear index. -/
theorem writeBack_perm (c : Camera) {l₁ l₂ : List (ℕ × Color)} (hp : l₁.Perm l₂) :
    (∀ p ∈ l₁, ∀ q ∈ l₁, p.1 = q.1 → p.2 = q.2) →
    ∀ cv : Canvas, cv.width = c.hsize → cv.height = c.vsize →
      Camera.writeBack c cv l₁ = Camera.writeBack c cv l₂ := by
  induction hp using List.Perm.recOnSwap' with
  | nil => exact fun _ _ _ _ => rfl
  | cons x h ih =>
    intro huniq cv hw hh
    rw [writeBack_cons, writeBack_cons]
    exact ih (fun p hp' q hq' => huniq p (List.mem_cons_of_mem x hp') q
      (List.mem_cons_of_mem x hq')) _ ((write_pixel_width cv _ _ _).trans hw)
      ((write_pixel_height cv _ _ _).trans hh)
  | swap' x y h ih =>
    intro huniq cv hw hh
    rw [writeBack_cons, writeBack_cons, writeBack_cons, writeBack_cons]
    have hxy : x.1 ≠ y.1 ∨ x = y := by
      by_cases he : x.1 = y.1
      · exact Or.inr (Prod.ext he (huniq x (by simp) y (by simp) he))
      · exact Or.inl he
    have hcomm := write_pixel_comm c y x
      (by rcases hxy with h' | h'
          · exact Or.inl (Ne.symm h')
          · exact Or.inr h'.symm) cv hw hh
    rw [hcomm]
    exact ih (fun p hp' q hq' => huniq p (by simp [hp']) q (by simp [hq'])) _
      ((write_pixel_width _ _ _ _).trans ((write_pixel_width cv _ _ _).trans hw))
      ((write_pixel_height _ _ _ _).trans ((write_pixel_height cv _ _ _).trans hh))
  | trans h₁ h₂ ih₁ ih₂ =>
    intro huniq cv hw hh
    rw [ih₁ huniq cv hw hh]
    refine ih₂ (fun p hp' q hq' => huniq p (h₁.mem_iff.mpr hp') q (h₁.mem_iff.mpr hq'))
      cv hw hh

/-- C8: `render` is a deterministic function of the camera and the world:
whenever it returns an image, (a) for every in-range pixel coordinate
`(x, y)` the image's row-major entry at `(x, y)` is exactly
`world.color_at (ray_for_pixel x y)`, and (b) writing the collected pixel
colors back in ANY order — any permutation of the enumerated pixel vector —
produces the same image, so the result does not depend on the order in which
other pixels are processed. -/
theorem render_spec (sqrt : ℚ → ℚ) (powf : ℚ → ℚ → ℚ) (c : Camera) (w : World)
    (img : Canvas) (hr : Camera.render sqrt powf c w = some img) :
    (∀ x y, x < c.hsize → y < c.vsize →
      ∃ r col, c.ray_for_pixel sqrt x y = some r ∧
        w.color_at sqrt powf r = some col ∧
        img.pixel_at x y = some col) ∧
    (∀ (pix : List Color) (order : List (ℕ × Color)),
      (List.range (c.hsize * c.vsize)).mapM (Camera.pixelColor sqrt powf c w) = some pix →
      order.Perm pix.enum →
      Camera.writeBack c (Canvas.new c.hsize c.vsize) order = img) := by
  simp only [Camera.render, Option.bind_eq_bind, Option.pure_def] at hr
  cases hm : (List.range (c.hsize * c.vsize)).mapM (Camera.pixelColor sqrt powf c w) with
  | none => rw [hm] at hr; simp at hr
  | some pixels =>
    rw [hm] at hr
    simp only [Option.some_bind, Option.some.injEq] at hr
    rw [← List.mapM'_eq_mapM] at hm
    have hlen : pixels.length = c.hsize * c.vsize := by
      have h := mapM'_some_length (Camera.pixelColor sqrt powf c w) _ _ hm
      simpa using h
    have hcvw : (Canvas.new c.hsize c.vsize).width = c.hsize := rfl
    have hcvh : (Canvas.new c.hsize c.vsize).height = c.vsize := rfl
    have hcvl : (Canvas.new c.hsize c.vsize).pixels.length = c.hsize * c.vsize := by
      simp [Canvas.new]
    constructor
    · intro x y hx hy
      have hpos : 0 < c.hsize := by omega
      have hjn : y * c.hsize + x < c.hsize * c.vsize := by
        calc y * c.hsize + x < y * c.hsize + c.hsize := by omega
        _ = (y + 1) * c.hsize := by ring
        _ ≤ c.vsize * c.hsize := Nat.mul_le_mul_right _ (by omega)
        _ = c.hsize * c.vsize := Nat.mul_comm _ _
      have hrange : (List.range (c.hsize * c.vsize)).get? (y * c.hsize + x) =
          some (y * c.hsize + x) := List.get?_range hjn
      have hpc := mapM'_some_get? (Camera.pixelColor sqrt powf c w) _ _ hm
        (y * c.hsize + x) (y * c.hsize + x) hrange
      cases hcol : pixels.get? (y * c.hsize + x) with
      | none =>
        have := List.get?_eq_none.mp hcol
        omega
      | some col =>
        have hpcj : Camera.pixelColor sqrt powf c w (y * c.hsize + x) = some col :=
          hpc.trans hcol
        have hmod : (y * c.hsize + x) % c.hsize = x := by
          rw [Nat.mul_comm y c.hsize, Nat.mul_add_mod, Nat.mod_eq_of_lt hx]
        have hdiv : (y * c.hsize + x) / c.hsize = y := by
          rw [Nat.mul_comm y c.hsize, Nat.mul_add_div hpos, Nat.div_eq_of_lt hx]
          omega
        simp only [Camera.pixelColor, hmod, hdiv, Option.bind_eq_bind] at hpcj
        cases hray : c.ray_for_pixel sqrt x y with
        | none => rw [hray] at hpcj; simp at hpcj
        | some r =>
          rw [hray] at hpcj
          simp only [Option.some_bind] at hpcj
          refine ⟨r, col, rfl, hpcj, ?_⟩
          have hiw : img.width = c.hsize := by
            rw [← hr]
            exact ((writeBack_dims c pixels.enum (Canvas.new c.hsize c.vsize)).1).trans hcvw
          unfold Canvas.pixel_at
          rw [hiw, ← hr]
          have henum : pixels.enum = List.enumFrom 0 pixels := rfl
          rw [henum,
            writeBack_enumFrom_get? c pixels 0 (Canvas.new c.hsize c.vsize)
              hcvw hcvh hcvl (y * c.hsize + x),
            if_pos ⟨Nat.zero_le _, by omega, hjn⟩]
          simpa using hcol
    · intro pix order hm' hperm
      have hpe : pixels = pix := Option.some.inj hm'
      subst hpe
      rw [← hr]
      refine writeBack_perm c hperm ?_ (Canvas.new c.hsize c.vsize) hcvw hcvh
      intro p hp q hq hfst
      have hp' : p ∈ pixels.enum := hperm.mem_iff.mp hp
      have hq' : q ∈ pixels.enum := hperm.mem_iff.mp hq
      obtain ⟨i, a⟩ := p
      obtain ⟨i', b⟩ := q
      have hii : i = i' := hfst
      subst hii
      have ha := List.mk_mem_enum_iff_getElem?.mp hp'
      have hb := List.mk_mem_enum_iff_getElem?.mp hq'
      exact Option.some.inj (ha.symm.trans hb)

/-- A fully concrete render used by the witness: a 1×1 camera over the empty
world produces the 1×1 black canvas. -/
theorem render_example :
    Camera.render Rat.sqrt (fun x y => x ^ y.num.toNat)
      (Camera.new (fun _ => (1:ℚ)/2) 1 1 0) World.new =
      some ⟨1, 1, [Color.new 0 0 0]⟩ := by
  have hray : (Camera.new (fun _ => (1:ℚ)/2) 1 1 0).ray_for_pixel Rat.sqrt 0 0 =
      some (Ray.new (Tuple.point 0 0 0) (Tuple.vector 0 0 (-1))) := by
    simp only [Camera.ray_for_pixel, Camera.new, Camera.halfDims]
    rw [identify_inverse]
    norm_num [Option.bind_eq_bind, Option.some_bind, Matrix.mulTuple, Matrix.entry,
      Matrix.identify, Matrix.elements_new, Matrix.size_new, isqrt_lit_16,
      Tuple.point, Tuple.vector, Tuple.new, Tuple.sub, Ray.new,
      Tuple.normalize, Tuple.magnitude]
  have hpix : Camera.pixelColor Rat.sqrt (fun x y => x ^ y.num.toNat)
      (Camera.new (fun _ => (1:ℚ)/2) 1 1 0) World.new 0 = some Color.black := by
    simp only [Camera.pixelColor, Nat.zero_mod, Nat.zero_div, Option.bind_eq_bind]
    rw [hray]
    simp only [Option.some_bind]
    rfl
  have hsz : (Camera.new (fun _ => (1:ℚ)/2) 1 1 0).hsize = 1 := rfl
  have hvz : (Camera.new (fun _ => (1:ℚ)/2) 1 1 0).vsize = 1 := rfl
  simp only [Camera.render, hsz, hvz, Option.bind_eq_bind, Option.pure_def]
  rw [← List.mapM'_eq_mapM]
  norm_num [List.range_succ, List.mapM', hpix, Option.bind_eq_bind, Option.some_bind]
  rfl

/-- Witness for `render_spec`: rendering the empty world through a 1×1
camera, the single pixel `(0,0)` of the output equals the `color_at` of its
pixel ray. -/
theorem render_spec_witness :
    ∃ r col,
      (Camera.new (fun _ => (1:ℚ)/2) 1 1 0).ray_for_pixel Rat.sqrt 0 0 = some r ∧
      World.new.color_at Rat.sqrt (fun x y => x ^ y.num.toNat) r = some col ∧
      Canvas.pixel_at ⟨1, 1, [Color.new 0 0 0]⟩ 0 0 = some col :=
  (render_spec Rat.sqrt (fun x y => x ^ y.num.toNat)
    (Camera.new (fun _ => (1:ℚ)/2) 1 1 0) World.new ⟨1, 1, [Color.new 0 0 0]⟩
    render_example).1 0 0 (by decide) (by decide)

/-- C10: matrix equality compares only the zipped element sequences of the
two matrices and ignores their sizes: whenever the left storage is at most as
long as the right one, the comparison holds exactly when every element of the
left storage is within `EPSILON` of the corresponding leading element of the
right storage, whatever the two `size` fields are. -/
theorem matEq_ignores_size (a b : Matrix)
    (h : a.elements.length ≤ b.elements.length) :
    Matrix.matEq a b = true ↔
      ∀ i, i < a.elements.length →
        equal_f64 (a.elements.getD i 0) (b.elements.getD i 0) = true := by
  unfold Matrix.matEq
  rw [List.all_eq_true]
  constructor
  · intro hall i hi
    have hib : i < b.elements.length := lt_of_lt_of_le hi h
    have hiz : i < (a.elements.zip b.elements).length := by
      rw [List.length_zip]; omega
    have := hall _ (List.getElem_mem hiz)
    rw [List.getElem_zip] at this
    rwa [List.getD_eq_getElem a.elements 0 hi, List.getD_eq_getElem b.elements 0 hib]
  · intro hp p hpmem
    obtain ⟨i, hiz, rfl⟩ := List.mem_iff_getElem.mp hpmem
    have hlen : i < min a.elements.length b.elements.length := by
      rwa [List.length_zip] at hiz
    have hia : i < a.elements.length := by omega
    have hib : i < b.elements.length := by omega
    have := hp i hia
    rw [List.getD_eq_getElem a.elements 0 hia, List.getD_eq_getElem b.elements 0 hib] at this
    rw [List.getElem_zip]
    exact this

/-- Witness for `matEq_ignores_size`: a 2×2 matrix compares equal to a 4×4
matrix whose first four stored elements match it. -/
theorem matEq_ignores_size_witness :
    Matrix.matEq (Matrix.new [1, 2, 3, 4])
      (Matrix.new [1, 2, 3, 4, 5, 6, 7, 8, 9, 10, 11, 12, 13, 14, 15, 16]) = true :=
  (matEq_ignores_size _ _ (by simp [Matrix.new])).mpr (by
    intro i hi
    simp only [Matrix.new, List.length_cons, List.length_nil] at hi
    interval_cases i <;> norm_num [Matrix.new, equal_f64, EPSILON])

/-- C3: `inverse` returns no result exactly when the determinant is within
`EPSILON` of zero (so it never silently returns a result for a singular
matrix), and otherwise the result has the same size and its entry at
`(row, col)` is `cofactor(col, row)` divided by the determinant. -/
theorem inverse_spec (m : Matrix) :
    (m.inverse = none ↔ |m.determinant| < EPSILON) ∧
    (∀ n, m.inverse = some n →
      n.size = m.size ∧
      ∀ r c, r < m.size → c < m.size →
        n.entry r c = m.cofactor c r / m.determinant) := by
  have hiff : equal_f64 m.determinant 0 = true ↔ |m.determinant| < EPSILON := by
    unfold equal_f64
    rw [decide_eq_true_eq, sub_zero]
  constructor
  · simp only [Matrix.inverse]
    by_cases h : equal_f64 m.determinant 0 = true
    · rw [if_pos h]
      simpa using hiff.mp h
    · rw [if_neg h]
      constructor
      · intro hsome
        exact (Option.some_ne_none _ hsome).elim
      · intro hlt
        exact absurd (hiff.mpr hlt) h
  · intro n hn
    simp only [Matrix.inverse] at hn
    by_cases h : equal_f64 m.determinant 0 = true
    · rw [if_pos h] at hn
      exact (Option.noConfusion hn)
    · rw [if_neg h, Option.some.injEq] at hn
      subst hn
      have hs : (Matrix.new ((List.range (m.size * m.size)).map fun index =>
          m.cofactor (index % m.size) (index / m.size) / m.determinant)).size = m.size := by
        simp [Matrix.new, isqrt_mul_self]
      refine ⟨hs, ?_⟩
      intro r c hr hc
      unfold Matrix.entry
      rw [hs]
      show (Matrix.new _).elements.getD _ _ = _
      simp only [Matrix.new]
      have hidx : r * m.size + c < m.size * m.size := by
        have h1 : r + 1 ≤ m.size := hr
        calc r * m.size + c < r * m.size + m.size := by omega
        _ = (r + 1) * m.size := by ring
        _ ≤ m.size * m.size := Nat.mul_le_mul_right _ h1
      have hlen : r * m.size + c <
          ((List.range (m.size * m.size)).map fun index =>
            m.cofactor (index % m.size) (index / m.size) / m.determinant).length := by
        simpa using hidx
      rw [List.getD_eq_getElem _ 0 hlen, List.getElem_map, List.getElem_range]
      have hmod : (r * m.size + c) % m.size = c := by
        rw [Nat.mul_comm r m.size, Nat.mul_add_mod]
        exact Nat.mod_eq_of_lt hc
      have hdiv : (r * m.size + c) / m.size = r := by
        have hpos : 0 < m.size := by omega
        rw [Nat.mul_comm r m.size, Nat.mul_add_div hpos, Nat.div_eq_of_lt hc]
        omega
      rw [hmod, hdiv]

/-- Evaluation: the inverse of the translation by `(5, -3, 2)` is the
translation by `(-5, 3, -2)`. -/
theorem translation_inverse_ex :
    (Matrix.translation 5 (-3) 2).inverse = some (Matrix.translation (-5) 3 (-2)) := by
  norm_num [Matrix.inverse, Matrix.translation, Matrix.det4_expand, equal_f64, EPSILON,
    Matrix.cofactor, Matrix.minor, List.range_succ,
    Matrix.sub44_00, Matrix.sub44_01, Matrix.sub44_02, Matrix.sub44_03,
    Matrix.sub44_10, Matrix.sub44_11, Matrix.sub44_12, Matrix.sub44_13,
    Matrix.sub44_20, Matrix.sub44_21, Matrix.sub44_22, Matrix.sub44_23,
    Matrix.sub44_30, Matrix.sub44_31, Matrix.sub44_32, Matrix.sub44_33,
    Matrix.det3_expand, Matrix.size_new, Matrix.elements_new, isqrt_lit_16]

/-- Witness for `inverse_spec`: the 4×4 translation by `(5, -3, 2)` is
invertible and entry `(0, 3)` of its inverse equals
`cofactor(3, 0) / determinant`. -/
theorem inverse_spec_witness :
    (Matrix.translation (-5) 3 (-2)).entry 0 3 =
      (Matrix.translation 5 (-3) 2).cofactor 3 0 /
        (Matrix.translation 5 (-3) 2).determinant :=
  (((inverse_spec (Matrix.translation 5 (-3) 2)).2
    (Matrix.translation (-5) 3 (-2)) translation_inverse_ex).2) 0 3
    (by norm_num [Matrix.translation, Matrix.size_new, isqrt_lit_16])
    (by norm_num [Matrix.translation, Matrix.size_new, isqrt_lit_16])

set_option maxHeartbeats 1600000 in
/-- Cramer roundtrip for an explicit 4×4 matrix: the matrix whose element at
`index` is `cofactor(index % 4, index / 4) / det` (the body of `inverse`),
applied to `M · t`, returns `t` exactly when the determinant is nonzero. -/
theorem inv4_roundtrip (a b c d e f g h i j k l m n o p : ℚ) (t : Tuple)
    (hdet0 : (Matrix.new [a, b, c, d, e, f, g, h, i, j, k, l, m, n, o, p]).determinant ≠ 0) :
    (Matrix.new ((List.range 16).map fun index =>
        (Matrix.new [a, b, c, d, e, f, g, h, i, j, k, l, m, n, o, p]).cofactor
            (index % 4) (index / 4) /
          (Matrix.new [a, b, c, d, e, f, g, h, i, j, k, l, m, n, o, p]).determinant)).mulTuple
      ((Matrix.new [a, b, c, d, e, f, g, h, i, j, k, l, m, n, o, p]).mulTuple t) = t := by
  obtain ⟨tx, ty, tz, tw⟩ := t
  norm_num [Matrix.mulTuple, Matrix.entry, Matrix.elements_new, Matrix.size_new,
    isqrt_lit_16, List.range_succ, Matrix.cofactor, Matrix.minor,
    Matrix.sub44_00, Matrix.sub44_01, Matrix.sub44_02, Matrix.sub44_03,
    Matrix.sub44_10, Matrix.sub44_11, Matrix.sub44_12, Matrix.sub44_13,
    Matrix.sub44_20, Matrix.sub44_21, Matrix.sub44_22, Matrix.sub44_23,
    Matrix.sub44_30, Matrix.sub44_31, Matrix.sub44_32, Matrix.sub44_33,
    Matrix.det3_expand, Tuple.new]
  refine ⟨?_, ?_, ?_, ?_⟩ <;>
  · field_simp
    rw [Matrix.det4_expand]
    ring

/-- C4: for every 4×4 matrix that the code deems invertible (`inverse`
returns a matrix, i.e. the determinant is not within `EPSILON` of zero) and
every tuple `t`, multiplying the inverse by the product `M · t` yields `t`
back up to the `EPSILON` tolerance of tuple equality (in fact exactly). -/
theorem inverse_mul_tuple (a b c d e f g h i j k l m n o p : ℚ) (t : Tuple) (N : Matrix)
    (hinv : (Matrix.new [a, b, c, d, e, f, g, h, i, j, k, l, m, n, o, p]).inverse = some N) :
    Tuple.approxEq
      (N.mulTuple ((Matrix.new [a, b, c, d, e, f, g, h, i, j, k, l, m, n, o, p]).mulTuple t))
      t = true := by
  simp only [Matrix.inverse] at hinv
  by_cases hd : equal_f64
      (Matrix.new [a, b, c, d, e, f, g, h, i, j, k, l, m, n, o, p]).determinant 0 = true
  · rw [if_pos hd] at hinv
    exact Option.noConfusion hinv
  · rw [if_neg hd, Option.some.injEq] at hinv
    have hdet0 :
        (Matrix.new [a, b, c, d, e, f, g, h, i, j, k, l, m, n, o, p]).determinant ≠ 0 := by
      intro h0
      apply hd
      unfold equal_f64
      rw [h0, decide_eq_true_eq]
      norm_num [EPSILON]
    have hsize : (Matrix.new [a, b, c, d, e, f, g, h, i, j, k, l, m, n, o, p]).size = 4 := by
      norm_num [Matrix.size_new, isqrt_lit_16]
    have h16 : (4 : ℕ) * 4 = 16 := rfl
    rw [← hinv]
    simp only [hsize, h16]
    rw [inv4_roundtrip a b c d e f g h i j k l m n o p t hdet0]
    norm_num [Tuple.approxEq, equal_f64, EPSILON, Bool.and_eq_true, decide_eq_true_eq]

/-- Witness for `inverse_mul_tuple`: the translation by `(5, -3, 2)` is
invertible, and its inverse applied to the image of the point `(1, 2, 3)`
returns the point, within the tuple tolerance. -/
theorem inverse_mul_tuple_witness :
    Tuple.approxEq
      ((Matrix.translation (-5) 3 (-2)).mulTuple
        ((Matrix.translation 5 (-3) 2).mulTuple (Tuple.point 1 2 3)))
      (Tuple.point 1 2 3) = true :=
  inverse_mul_tuple 1 0 0 5 0 1 0 (-3) 0 0 1 2 0 0 0 1 (Tuple.point 1 2 3)
    (Matrix.translation (-5) 3 (-2)) translation_inverse_ex

end RT
